import Mathlib

/-!
Verification of the germondai/ts-utils utility library.

JavaScript strings are modelled as lists of characters (`Str`), JavaScript
runtime values as the inductive type `Value`, and plain objects as ordered
association lists of entries (`Entries`), mirroring JS insertion-order key
semantics.  Numbers are modelled with exact rational arithmetic; IEEE-754
rounding is outside the model and is noted where it could matter.
-/

set_option maxHeartbeats 1000000

namespace TsUtils

/-- A JavaScript string, modelled as its list of characters. -/
abbrev Str := List Char

/-- A JavaScript runtime value.

* `undef`/`null` are the two JS nullish values.
* `num` carries an exact rational; `nan` is the number `NaN`.
* `date valid t` models a `Date`: `valid = false` is an invalid date
  (`getTime()` is `NaN`).
* `arr`, `obj`, `set`, `map` carry their elements in insertion order; plain
  objects (`obj`) are association lists of string keys.
* `func` stands for any value of `typeof` `function`. -/
inductive Value where
  | undef : Value
  | null : Value
  | bool : Bool → Value
  | num : ℚ → Value
  | nan : Value
  | str : Str → Value
  | arr : List Value → Value
  | obj : List (Str × Value) → Value
  | set : List Value → Value
  | map : List (Value × Value) → Value
  | date : Bool → ℤ → Value
  | func : Value

instance : Inhabited Value := ⟨.undef⟩

/-- The entries of a plain JS object, in insertion order. -/
abbrev Entries := List (Str × Value)

/-- `Object.keys`, in insertion order. -/
def keysOf (es : Entries) : List Str := es.map Prod.fst

/-- Key membership (the JS `in` operator / `Array.prototype.includes` on
`Object.keys`). -/
def containsKey (es : Entries) (k : Str) : Bool := (keysOf es).contains k

/-- Property read `o[k]`, `none` when the key is absent. -/
def lookupEnt : Entries → Str → Option Value
  | [], _ => none
  | (k1, v1) :: rest, k => if k1 = k then some v1 else lookupEnt rest k

/-- Property read `o[k]`, yielding `undefined` when the key is absent. -/
def lookupD (es : Entries) (k : Str) : Value := (lookupEnt es k).getD Value.undef

/-- Property write `o[k] = v`: updates the first entry with key `k` in place,
or appends a fresh entry (JS keeps the original key position on update). -/
def setKey : Entries → Str → Value → Entries
  | [], k, v => [(k, v)]
  | (k1, v1) :: rest, k, v =>
    if k1 = k then (k1, v) :: rest else (k1, v1) :: setKey rest k v


/-! ## `typeof`, `===` and deep equality (src/src/runtime/object.ts) -/

/-- The result of the JS `typeof` operator, restricted to the tags a `Value`
can produce. -/
inductive TypeTag where
  | tundefined | tobject | tboolean | tnumber | tstring | tfunction
  deriving DecidableEq

/-- `typeof v`.  `null`, dates, arrays, sets, maps and plain objects are all
`"object"`. -/
def typeOf : Value → TypeTag
  | .undef => .tundefined
  | .null => .tobject
  | .bool _ => .tboolean
  | .num _ => .tnumber
  | .nan => .tnumber
  | .str _ => .tstring
  | .arr _ => .tobject
  | .obj _ => .tobject
  | .set _ => .tobject
  | .map _ => .tobject
  | .date _ _ => .tobject
  | .func => .tfunction

/-- JS strict equality `a === b`.  Primitives compare by value; `NaN === NaN`
is `false`.  For composite values `===` is reference equality, which a pure
value model cannot observe: the model assumes distinct references (no
aliasing), so composites compare `false` here and are compared structurally
by `deepEqual` instead. -/
def strictEq : Value → Value → Bool
  | .undef, .undef => true
  | .null, .null => true
  | .bool a, .bool b => a == b
  | .num a, .num b => a == b
  | .str a, .str b => a == b
  | _, _ => false

/-- JS loose `v == null`, true exactly for `null` and `undefined`. -/
def isNullish : Value → Bool
  | .undef => true
  | .null => true
  | _ => false

/-- `isPlainObj` from src/src/runtime/object.ts: a non-null object whose
constructor is `Object`. -/
def isPlainObj : Value → Bool
  | .obj _ => true
  | _ => false

/-- The entries of a plain object value (`[]` for non-objects; only used
under an `isPlainObj` guard). -/
def objEntries : Value → Entries
  | .obj es => es
  | _ => []

mutual

/-- `deepEqual` from src/src/runtime/object.ts lines 125-143. -/
def deepEqual (a b : Value) : Bool :=
  if strictEq a b then true
  else if isNullish a || isNullish b then false
  else if typeOf a ≠ typeOf b then false
  else
    match a, b with
    | .arr xs, .arr ys => xs.length == ys.length && deepEqualList xs ys
    | .obj xs, .obj ys => xs.length == ys.length && deepEqualEntries xs ys
    | _, _ => false
termination_by sizeOf a
decreasing_by all_goals (simp_wf; try omega)

/-- `a.every((v, i) => deepEqual(v, b[i]))`: element-wise comparison of two
arrays (an out-of-range `b[i]` is `undefined`; the length check in
`deepEqual` makes that case unreachable). -/
def deepEqualList : List Value → List Value → Bool
  | [], _ => true
  | x :: xs, [] => deepEqual x .undef && deepEqualList xs []
  | x :: xs, y :: ys => deepEqual x y && deepEqualList xs ys
termination_by l ys => sizeOf l
decreasing_by all_goals (simp_wf; try omega)

/-- `keysA.every((k) => keysB.includes(k) && deepEqual(a[k], b[k]))`:
iterating `Object.keys(a)` is iterating `a`'s entries, whose keys are
unique in a real JS object. -/
def deepEqualEntries : Entries → Entries → Bool
  | [], _ => true
  | (k, va) :: xs, ys =>
    containsKey ys k && deepEqual va (lookupD ys k) && deepEqualEntries xs ys
termination_by l ys => sizeOf l
decreasing_by all_goals (simp_wf; try omega)

end

/-! ## `merge` and `diff` (src/src/runtime/object.ts) -/

/-- Size bound used by the termination arguments below. -/
theorem sizeOf_objEntries_lt (v : Value) (h : isPlainObj v = true) :
    sizeOf (objEntries v) < sizeOf v := by
  cases v <;> simp [isPlainObj, objEntries] at h ⊢ <;> omega

/-- One pass of `merge`'s outer loop: fold the entries of a source object
into the accumulated result.  When both the accumulated value and the new
value are plain objects the source computes `merge(result[key], val)`, the
variadic merge of two objects; since folding an object with unique keys
into `{}` copies it unchanged, that equals `mergeEntries ao vo` (see
`mergeEntries_nil_eq`). -/
def mergeEntries : Entries → Entries → Entries
  | acc, [] => acc
  | acc, (k, v) :: rest =>
    if h : isPlainObj v && isPlainObj (lookupD acc k) then
      mergeEntries
        (setKey acc k (.obj (mergeEntries (objEntries (lookupD acc k)) (objEntries v)))) rest
    else mergeEntries (setKey acc k v) rest
termination_by acc l => sizeOf l
decreasing_by
  all_goals simp_wf
  all_goals try omega
  all_goals
    (simp only [Bool.and_eq_true] at h
     have := sizeOf_objEntries_lt _ h.1
     omega)

/-- `merge(...objects)` from src/src/runtime/object.ts lines 50-68. -/
def merge (objects : List Entries) : Entries := objects.foldl mergeEntries []

/-- The part of `diff`'s loop over `allKeys` that handles keys present only
in `b`: there `a[key]` is `undefined`, never a plain object, so no
recursion happens (`deepEqual(undefined, valB)` only holds when `valB` is
itself `undefined`). -/
def diffNewB : Entries → Entries → Entries
  | _, [] => []
  | a, (k, vb) :: rest =>
    (if containsKey a k then []
     else if deepEqual .undef vb then [] else [(k, vb)]) ++ diffNewB a rest

/-- The part of `diff`'s loop over `allKeys` that handles keys present in
`a` (`allKeys` lists `Object.keys(a)` first, then the new keys of `b`).
The arguments are `(b, entries of a)`; iterating `a`'s entries is
iterating its keys, which are unique in a real JS object. -/
def diffOldA : Entries → Entries → Entries
  | _, [] => []
  | b, (k, va) :: rest =>
    (if deepEqual va (lookupD b k) then []
     else if h : isPlainObj va && isPlainObj (lookupD b k) then
       if (diffOldA (objEntries (lookupD b k)) (objEntries va)
            ++ diffNewB (objEntries va) (objEntries (lookupD b k))).isEmpty then []
       else
         [(k, .obj (diffOldA (objEntries (lookupD b k)) (objEntries va)
            ++ diffNewB (objEntries va) (objEntries (lookupD b k))))]
     else [(k, lookupD b k)]) ++ diffOldA b rest
termination_by b l => sizeOf l
decreasing_by
  all_goals simp_wf
  all_goals try omega
  all_goals
    (simp only [Bool.and_eq_true] at h
     have := sizeOf_objEntries_lt _ h.1
     omega)

/-- `diff(a, b)` from src/src/runtime/object.ts lines 161-182: iterate
`new Set([...Object.keys(a), ...Object.keys(b)])`, i.e. the keys of `a`
followed by the keys of `b` not in `a`. -/
def diff (a b : Entries) : Entries := diffOldA b a ++ diffNewB a b

/-! ## `flattenObject` / `unflattenObject` (src/src/runtime/object.ts) -/

/-- `key.split('.')` for the one-character separator `'.'` (JS semantics:
the result is never empty; `"".split('.')` is `[""]`). -/
def splitDot : Str → List Str
  | [] => [[]]
  | c :: rest =>
    if c = '.' then [] :: splitDot rest
    else
      match splitDot rest with
      | [] => [[c]]
      | p :: ps => (c :: p) :: ps

/-- Join path segments with `'.'` (the inverse view of `splitDot`). -/
def joinDot : List Str → Str
  | [] => []
  | [p] => p
  | p :: rest => p ++ '.' :: joinDot rest

/-- `Object.assign(acc, ext)`: copy the entries of `ext` into `acc` in
order, overriding existing keys. -/
def assignEnt (acc ext : Entries) : Entries :=
  ext.foldl (fun a kv => setKey a kv.1 kv.2) acc

/-- The loop body of `flattenObject(obj, prefix)` (lines 80-95): `acc` is
the `result` object being filled; for a plain-object value the recursive
flattening is merged in with `Object.assign`, otherwise
`result[fullKey] = val`. -/
def flattenGo : Str → Entries → Entries → Entries
  | _, acc, [] => acc
  | pre, acc, (k, v) :: rest =>
    if h : isPlainObj v then
      flattenGo pre
        (assignEnt acc
          (flattenGo (if pre.isEmpty then k else pre ++ '.' :: k) [] (objEntries v))) rest
    else
      flattenGo pre (setKey acc (if pre.isEmpty then k else pre ++ '.' :: k) v) rest
termination_by pre acc l => sizeOf l
decreasing_by
  all_goals simp_wf
  all_goals try omega
  all_goals (have hlt := sizeOf_objEntries_lt _ h; omega)

/-- `flattenObject(obj, prefix)`; the exported call site uses `prefix = ""`. -/
def flattenObject (es : Entries) (pre : Str) : Entries := flattenGo pre [] es

/-- One key insertion of `unflattenObject`'s loop: walk `parts`, creating
`{}` nodes for missing keys, and assign the value at the last part.
Walking *through* an existing non-object value makes the JS code assign a
property on a primitive, a `TypeError` in strict mode (the library ships
as ES modules); that failure is modelled as `none`.  (JS arrays could
absorb string properties instead of failing; array-with-extra-properties
values are outside this value model and outside every claim's domain.) -/
def insertPath : Entries → List Str → Value → Option Entries
  | t, [k], v => some (setKey t k v)
  | t, k :: rest, v =>
    match lookupEnt t k with
    | none => (insertPath [] rest v).map (fun s => setKey t k (.obj s))
    | some (.obj u) => (insertPath u rest v).map (fun s => setKey t k (.obj s))
    | some _ => none
  | _, [], _ => none

/-- The fold of `unflattenObject` over the flat object's entries. -/
def unflatGo : Entries → Entries → Option Entries
  | t, [] => some t
  | t, (k, v) :: rest =>
    match insertPath t (splitDot k) v with
    | none => none
    | some t1 => unflatGo t1 rest

/-- `unflattenObject(obj)` from src/src/runtime/object.ts lines 106-120;
`none` models the strict-mode `TypeError` raised on conflicting paths. -/
def unflattenObject (f : Entries) : Option Entries := unflatGo [] f

mutual

/-- The domain stated by the flatten/unflatten round-trip claim: keys at
every nesting level contain no literal dot (and are unique, as JS object
keys always are); every plain-mapping value is an internal node, so leaf
values are never plain mappings. -/
def claimDomTree : Entries → Bool
  | [] => true
  | (k, v) :: rest =>
    !k.contains '.' && !containsKey rest k && claimDomV v && claimDomTree rest

/-- Value side of `claimDomTree`. -/
def claimDomV : Value → Bool
  | .obj es => claimDomTree es
  | _ => true

end

mutual

/-- The amended round-trip domain: like `claimDomTree` but keys are also
nonempty and plain-mapping values are nonempty (an empty mapping value is
dropped by `flattenObject`, and an empty top-level key with a mapping
value loses its dot prefix). -/
def goodTree : Entries → Bool
  | [] => true
  | (k, v) :: rest =>
    !k.isEmpty && !k.contains '.' && !containsKey rest k && goodV v && goodTree rest

/-- Value side of `goodTree`. -/
def goodV : Value → Bool
  | .obj es => !es.isEmpty && goodTree es
  | _ => true

end

/-- A flat mapping in the claimed round-trip domain: keys contain no
literal dot (and are unique), values are not plain mappings. -/
def goodFlat : Entries → Bool
  | [] => true
  | (k, v) :: rest =>
    !k.contains '.' && !containsKey rest k && !isPlainObj v && goodFlat rest

/-- Specification view of flattening: the depth-first list of
(key-path, leaf-value) pairs of a tree of plain mappings. -/
def leafPaths : Entries → List (List Str × Value)
  | [] => []
  | (k, v) :: rest =>
    (match v with
     | .obj sub => (leafPaths sub).map (fun pw => (k :: pw.1, pw.2))
     | w => [([k], w)]) ++ leafPaths rest
termination_by l => sizeOf l
decreasing_by all_goals (simp_wf; try omega)

/-- Concatenation view of `flattenGo` (same traversal, but collecting the
emitted entries by appending instead of `Object.assign`). -/
def flatCat : Str → Entries → Entries
  | _, [] => []
  | pre, (k, v) :: rest =>
    (let fullKey := if pre.isEmpty then k else pre ++ '.' :: k
     match v with
     | .obj sub => flatCat fullKey sub
     | _ => [(fullKey, v)]) ++ flatCat pre rest
termination_by pre l => sizeOf l
decreasing_by all_goals (simp_wf; try omega)

/-- Fold `insertPath` over a list of already-split (path, value) pairs. -/
def insertAll : Entries → List (List Str × Value) → Option Entries
  | t, [] => some t
  | t, (p, v) :: rest =>
    match insertPath t p v with
    | none => none
    | some t1 => insertAll t1 rest

/-! ## `chunk` (src/src/runtime/array.ts lines 82-89) -/

/-- The slicing loop of `chunk` for a positive chunk size `s + 1`:
`result.push(array.slice(i, i + size))` for `i = 0, size, 2*size, ...`. -/
def chunkPos : List α → ℕ → List (List α)
  | [], _ => []
  | x :: xs, s => (x :: xs).take (s + 1) :: chunkPos ((x :: xs).drop (s + 1)) s
termination_by l s => l.length
decreasing_by all_goals (simp_wf; omega)

/-- `chunk(array, size)`: non-positive sizes yield `[]`.  The size is
modelled as an integer (fractional JS sizes are outside the model). -/
def chunk (array : List α) (size : ℤ) : List (List α) :=
  if size ≤ 0 then [] else chunkPos array (size.toNat - 1)

/-! ## String utilities (src/unnamed/part_010) -/

/-- `s.slice(0, e)` with a possibly negative end index: a negative `e`
counts from the end of the string, clamped at 0. -/
def jsSliceTo (s : Str) (e : ℤ) : Str :=
  if e < 0 then s.take ((s.length : ℤ) + e).toNat else s.take e.toNat

/-- `truncate(text, maxLength, ellipsis)` from src/unnamed/part_010
lines 134-143. -/
def truncate (text : Str) (maxLength : ℤ) (ellipsis : Bool) : Str :=
  if (text.length : ℤ) ≤ maxLength then text
  else if ellipsis then jsSliceTo text (maxLength - 3) ++ ['.', '.', '.']
  else jsSliceTo text maxLength

/-- Unicode NFD canonical decomposition of one character, tabulated for a
representative set of Latin precomposed letters; characters without a
listed decomposition are returned unchanged.  (The full decomposition
table is Unicode environment data, not repository code; no claim in scope
depends on which characters decompose.) -/
def nfdChar (c : Char) : Str :=
  if c = 'á' then ['a', '́'] else if c = 'é' then ['e', '́']
  else if c = 'í' then ['i', '́'] else if c = 'ó' then ['o', '́']
  else if c = 'ú' then ['u', '́'] else if c = 'à' then ['a', '̀']
  else if c = 'è' then ['e', '̀'] else if c = 'ì' then ['i', '̀']
  else if c = 'ò' then ['o', '̀'] else if c = 'ù' then ['u', '̀']
  else if c = 'â' then ['a', '̂'] else if c = 'ê' then ['e', '̂']
  else if c = 'î' then ['i', '̂'] else if c = 'ô' then ['o', '̂']
  else if c = 'û' then ['u', '̂'] else if c = 'ä' then ['a', '̈']
  else if c = 'ë' then ['e', '̈'] else if c = 'ï' then ['i', '̈']
  else if c = 'ö' then ['o', '̈'] else if c = 'ü' then ['u', '̈']
  else if c = 'ñ' then ['n', '̃'] else if c = 'ã' then ['a', '̃']
  else if c = 'õ' then ['o', '̃'] else if c = 'ç' then ['c', '̧']
  else if c = 'å' then ['a', '̊'] else [c]

/-- `str.normalize('NFD')`. -/
def nfd (s : Str) : Str := s.flatMap nfdChar

/-- A combining mark in the range `[̀-ͯ]`. -/
def isCombining (c : Char) : Bool := 0x300 ≤ c.toNat && c.toNat ≤ 0x36f

/-- JS `\s` (modelled for the ASCII whitespace characters). -/
def isWsJS (c : Char) : Bool :=
  c = ' ' || c = '\t' || c = '\n' || c = '\r' || c.toNat = 11 || c.toNat = 12

/-- ASCII `\w`: letters, digits, underscore. -/
def isWordChar (c : Char) : Bool :=
  ('a' ≤ c && c ≤ 'z') || ('A' ≤ c && c ≤ 'Z') || ('0' ≤ c && c ≤ '9') || c = '_'

/-- `str.trim()` (whitespace stripped from both ends). -/
def trimWs (s : Str) : Str :=
  ((s.dropWhile isWsJS).reverse.dropWhile isWsJS).reverse

/-- `.replace(/\s+/g, '-')`: every maximal whitespace run becomes one
hyphen. -/
def collapseWsToHyphen : Str → Str
  | [] => []
  | c :: rest =>
    if isWsJS c then '-' :: collapseWsToHyphen (rest.dropWhile isWsJS)
    else c :: collapseWsToHyphen rest
termination_by l => l.length
decreasing_by
  all_goals simp_wf
  all_goals try omega
  all_goals (have hlen := (rest.dropWhile_sublist isWsJS).length_le; omega)

/-- `.replace` with the global pattern "two or more hyphens", replacing
each match by one hyphen (collapsing every hyphen run to one hyphen is the
same function, since a single hyphen is left unchanged either way). -/
def collapseHyphens : Str → Str
  | [] => []
  | c :: rest =>
    if c = '-' then '-' :: collapseHyphens (rest.dropWhile (· == '-'))
    else c :: collapseHyphens rest
termination_by l => l.length
decreasing_by
  all_goals simp_wf
  all_goals try omega
  all_goals (have hlen := (rest.dropWhile_sublist (· == '-')).length_le; omega)

/-- `slugify(title, length)` from src/unnamed/part_010 lines 156-168:
NFD-decompose, strip combining marks, lowercase, trim, hyphenate
whitespace runs, drop non-word non-hyphen characters, collapse and trim
hyphen runs, then cut to `length`.  (`toLowerCase` is modelled on ASCII;
after mark stripping, any character it would affect beyond ASCII is
removed by the `[^\w-]` step anyway.) -/
def slugify (title : Str) (length : ℤ) : Str :=
  let s1 := nfd title
  let s2 := s1.filter (fun c => !isCombining c)
  let s3 := s2.map Char.toLower
  let s4 := trimWs s3
  let s5 := collapseWsToHyphen s4
  let s6 := s5.filter (fun c => isWordChar c || c = '-')
  let s7 := collapseHyphens s6
  let s8 := s7.dropWhile (· == '-')
  let s9 := (s8.reverse.dropWhile (· == '-')).reverse
  jsSliceTo s9 length

/-! ## HTML escape / unescape (src/unnamed/part_010) -/

/-- The five-entry escape map of `escapeHTML`, applied to one character. -/
def escChar (c : Char) : Str :=
  if c = '&' then "&amp;".toList
  else if c = '<' then "&lt;".toList
  else if c = '>' then "&gt;".toList
  else if c = '"' then "&quot;".toList
  else if c = '\'' then "&#039;".toList
  else [c]

/-- `escapeHTML(str)` from src/unnamed/part_010 lines 186-196:
`str.replace(/[&<>"']/g, (char) => escapeMap[char] || char)`. -/
def escapeHTML (s : Str) : Str := s.flatMap escChar

/-- A character matched by `[a-zA-Z0-9#]` in `unescapeHTML`'s entity
pattern. -/
def isEntityChar (c : Char) : Bool :=
  ('a' ≤ c && c ≤ 'z') || ('A' ≤ c && c ≤ 'Z') || ('0' ≤ c && c ≤ '9') || c = '#'

/-- `unescapeMap[entity] || entity`. -/
def entityValue (ent : Str) : Str :=
  if ent = "&amp;".toList then ['&']
  else if ent = "&lt;".toList then ['<']
  else if ent = "&gt;".toList then ['>']
  else if ent = "&quot;".toList then ['"']
  else if ent = "&#039;".toList then ['\'']
  else ent

/-- `unescapeHTML(str)` from src/unnamed/part_010 lines 205-218:
`str.replace(/&[a-zA-Z0-9#]+;/g, (entity) => unescapeMap[entity] || entity)`.
A match at an ampersand needs a nonempty run of entity characters followed
immediately by a semicolon (the character class cannot absorb the
semicolon, so greedy matching is deterministic here). -/
def unescapeHTML : Str → Str
  | [] => []
  | c :: rest =>
    if c = '&' && !(rest.takeWhile isEntityChar).isEmpty
        && ((rest.dropWhile isEntityChar).head? == some ';') then
      entityValue ('&' :: rest.takeWhile isEntityChar ++ [';']) ++
        unescapeHTML (rest.dropWhile isEntityChar).tail
    else c :: unescapeHTML rest
termination_by l => l.length
decreasing_by
  all_goals simp_wf
  all_goals try omega
  all_goals
    (have h1 := (rest.dropWhile_sublist isEntityChar).length_le
     have h2 : ((rest.dropWhile isEntityChar).tail).length
         = (rest.dropWhile isEntityChar).length - 1 := List.length_tail _
     omega)

/-! ## `normalize` (src/src/runtime/normalize.ts) -/

/-- `normalize(value)` from src/src/runtime/normalize.ts: the `switch` on
`typeof value`, written out per `Value` constructor.  `undef` takes the
`default` branch (`value ?? null` is `null`); `func` takes the `default`
branch and passes through. -/
def normalize : Value → Value
  | .str s => if s.isEmpty then .null else .str s
  | .nan => .null
  | .num q => .num q
  | .bool b => .bool b
  | .null => .null
  | .undef => .null
  | .date valid t => if valid then .date valid t else .null
  | .arr l => if l.isEmpty then .null else .arr l
  | .set l => if l.isEmpty then .null else .set l
  | .map l => if l.isEmpty then .null else .map l
  | .obj es => if es.isEmpty then .null else .obj es
  | .func => .func

/-- The spec's list of semantically-empty values: empty string, `NaN`,
invalid date, empty array/set/map/plain-object, `null`, `undefined`
(stated from the specification, for comparison with `normalize`). -/
def specEmpty : Value → Bool
  | .str s => s.isEmpty
  | .nan => true
  | .num _ => false
  | .bool _ => false
  | .null => true
  | .undef => true
  | .date valid _ => !valid
  | .arr l => l.isEmpty
  | .set l => l.isEmpty
  | .map l => l.isEmpty
  | .obj es => es.isEmpty
  | .func => false

/-! ## `formatBytes` / `toBytes` (src/unnamed/part_008)

Byte counts are natural numbers and arithmetic is exact: the float
expression `Math.floor(Math.log(bytes) / Math.log(1024))` is modelled by
the exact base-1024 integer logarithm, `toFixed` by exact half-up decimal
rounding, and `parseFloat` of a `toFixed` output by the rational it
denotes.  IEEE-754 double rounding is outside the model. -/

/-- Decimal digits of a natural number (most significant first). -/
def natDigits (n : ℕ) : Str := Nat.toDigits 10 n

/-- Render `m / 10^dm` the way JS number-to-string does for such a value:
decimal expansion with trailing fractional zeros removed, no point when
the fraction is zero. -/
def renderScaled (m dm : ℕ) : Str :=
  let ip := m / 10 ^ dm
  let fp := m % 10 ^ dm
  if fp = 0 then natDigits ip
  else
    let fpStr := List.replicate (dm - (natDigits fp).length) '0' ++ natDigits fp
    natDigits ip ++ '.' :: (fpStr.reverse.dropWhile (· == '0')).reverse

/-- `formatBytes(bytes, decimals)` from src/unnamed/part_008 lines 10-18.
`sizes[i]` for `i ≥ 6` is `undefined`, which a template literal renders as
the string `undefined`. -/
def formatBytes (bytes : ℕ) (decimals : ℤ) : Str :=
  if bytes = 0 then "0 Bytes".toList
  else
    let dm : ℕ := if decimals < 0 then 0 else decimals.toNat
    let sizes : List Str :=
      ["Bytes".toList, "KB".toList, "MB".toList, "GB".toList, "TB".toList, "PB".toList]
    let i := Nat.log 1024 bytes
    let scaled : ℤ := ⌊(bytes : ℚ) / (1024 : ℚ) ^ i * (10 : ℚ) ^ dm + 1 / 2⌋
    renderScaled scaled.toNat dm ++ ' ' :: sizes.getD i "undefined".toList

/-- ASCII digit test (`\d`). -/
def isDigitChar (c : Char) : Bool := '0' ≤ c && c ≤ '9'

/-- Numeric value of a digit string. -/
def digitsVal (s : Str) : ℕ := s.foldl (fun acc c => acc * 10 + (c.toNat - '0'.toNat)) 0

/-- `toBytes(size)` from src/unnamed/part_008 lines 42-64: trim, match
the anchored pattern "digits, optional point, digits, optional spaces,
unit `B|KB|MB|GB|TB` (case-insensitive)", then scale.  With this pattern
greedy regex matching is deterministic, so the match is modelled by
taking maximal digit/space runs.  `Bytes` and `PB` are not accepted
units.  The `isNaN`/negative guard of the source cannot fire (the digit
pattern admits no sign or letters) but is kept.  `none` models
`undefined`. -/
def toBytes (size : Str) : Option ℚ :=
  let s := trimWs size
  let intDigits := s.takeWhile isDigitChar
  let rest1 := s.dropWhile isDigitChar
  if intDigits.isEmpty then none
  else
    let fracDigits := match rest1 with
      | '.' :: r => r.takeWhile isDigitChar
      | _ => []
    let rest2 := match rest1 with
      | '.' :: r => r.dropWhile isDigitChar
      | _ => rest1
    let unit := (rest2.dropWhile isWsJS).map Char.toUpper
    let value : ℚ := (digitsVal intDigits : ℚ)
      + (digitsVal fracDigits : ℚ) / (10 : ℚ) ^ fracDigits.length
    if value < 0 then none
    else if unit = "B".toList then some value
    else if unit = "KB".toList then some (value * 1024)
    else if unit = "MB".toList then some (value * 1024 * 1024)
    else if unit = "GB".toList then some (value * 1024 * 1024 * 1024)
    else if unit = "TB".toList then some (value * 1024 * 1024 * 1024 * 1024)
    else none

/-! ## `retry` (src/src/runtime/promise.ts lines 23-43)

The async operation is modelled as a function from the attempt index to
that attempt's outcome.  `retryAux f delay backoff attempt rem` runs the
loop from iteration `attempt` with `rem = retries - attempt` iterations
after the current one; it returns the final outcome (`.error e` models
`throw lastError`), the number of attempts performed, and the list of
waits performed (the argument of each `sleep`, in order). -/
def retryAux (f : ℕ → Except E A) (delay : ℕ) (backoff : Bool) :
    ℕ → ℕ → Except E A × ℕ × List ℕ
  | attempt, rem =>
    match f attempt, rem with
    | .ok a, _ => (.ok a, 1, [])
    | .error e, 0 => (.error e, 1, [])
    | .error _, r + 1 =>
      let w := if backoff then delay * 2 ^ attempt else delay
      let out := retryAux f delay backoff (attempt + 1) r
      (out.1, out.2.1 + 1, w :: out.2.2)

/-- `retry(fn, { retries, delay, backoff })`: run attempts `0..retries`,
stopping at the first success; on failure of attempt `k < retries`, wait
`delay * 2^k` (backoff) or `delay` before the next attempt; after a
failure of attempt `retries`, the last failure propagates. -/
def retry (f : ℕ → Except E A) (retries delay : ℕ) (backoff : Bool) :
    Except E A × ℕ × List ℕ :=
  retryAux f delay backoff 0 retries

/-! ## `throttle` (src/src/runtime/function.ts lines 46-79)

The wrapper's state is the pending-timer handle (scheduled fire time and
the captured arguments) and `lastRun`.  A run processes a list of timed
wrapper calls on the single-threaded event loop: before each call, a
pending timeout whose time has come fires; at the end of the run any
pending timeout fires at its scheduled time.  The model idealizes timer
delivery as exact (`Date.now()` inside the callback equals the scheduled
time).  `lastRun` starts at `0` as in the source; real clock values make
`now - lastRun` large, which a first-call-time hypothesis `t ≥ ms`
captures. -/
structure ThrottleState (A : Type) where
  timer : Option (ℤ × A)
  lastRun : ℤ

/-- Fire the pending timeout if its scheduled time has come: the callback
sets `lastRun = Date.now()`, clears the handle and invokes `fn`. -/
def fireDue (s : ThrottleState A) (now : ℤ) : ThrottleState A × List (ℤ × A) :=
  match s.timer with
  | some (ft, a) => if ft ≤ now then (⟨none, ft⟩, [(ft, a)]) else (s, [])
  | none => (s, [])

/-- One call of the throttled wrapper at time `now`: immediate run when
the interval has elapsed; otherwise schedule a trailing call only if no
timer is pending (a pending timer makes the call a no-op). -/
def throttleCall (ms : ℤ) (s : ThrottleState A) (now : ℤ) (args : A) :
    ThrottleState A × List (ℤ × A) :=
  let remaining := ms - (now - s.lastRun)
  if remaining ≤ 0 then (⟨none, now⟩, [(now, args)])
  else
    match s.timer with
    | none => (⟨some (now + remaining, args), s.lastRun⟩, [])
    | some _ => (s, [])

/-- Process the timed calls in order, then flush the pending timer. -/
def runThrottleGo (ms : ℤ) (s : ThrottleState A) : List (ℤ × A) → List (ℤ × A)
  | [] => (match s.timer with | some (ft, a) => [(ft, a)] | none => [])
  | (t, a) :: rest =>
    let fd := fireDue s t
    let cs := throttleCall ms fd.1 t a
    fd.2 ++ cs.2 ++ runThrottleGo ms cs.1 rest

/-- The observable behaviour of `throttle(fn, ms)` on a timed call list:
the list of `(time, args)` invocations of `fn`. -/
def runThrottle (ms : ℤ) (calls : List (ℤ × A)) : List (ℤ × A) :=
  runThrottleGo ms ⟨none, 0⟩ calls

/-! ## Association-list lemmas -/

@[simp] theorem keysOf_nil : keysOf [] = [] := rfl

@[simp] theorem keysOf_cons (k : Str) (v : Value) (rest : Entries) :
    keysOf ((k, v) :: rest) = k :: keysOf rest := rfl

@[simp] theorem keysOf_append (a b : Entries) :
    keysOf (a ++ b) = keysOf a ++ keysOf b := List.map_append _ a b

@[simp] theorem lookupEnt_nil (k : Str) : lookupEnt [] k = none := rfl

theorem lookupEnt_cons (k1 : Str) (v1 : Value) (rest : Entries) (k : Str) :
    lookupEnt ((k1, v1) :: rest) k =
      if k1 = k then some v1 else lookupEnt rest k := rfl

theorem lookupEnt_append_left (a b : Entries) (k : Str)
    (h : k ∈ keysOf a) : lookupEnt (a ++ b) k = lookupEnt a k := by
  induction a with
  | nil => simp [keysOf] at h
  | cons hd tl ih =>
    obtain ⟨k1, v1⟩ := hd
    by_cases hk : k1 = k
    · simp [lookupEnt, hk]
    · simp only [keysOf_cons, List.mem_cons] at h
      rcases h with h | h
      · exact absurd h.symm hk
      · simp [lookupEnt, hk, ih h]

theorem lookupEnt_append_right (a b : Entries) (k : Str)
    (h : k ∉ keysOf a) : lookupEnt (a ++ b) k = lookupEnt b k := by
  induction a with
  | nil => simp
  | cons hd tl ih =>
    obtain ⟨k1, v1⟩ := hd
    simp only [keysOf_cons, List.mem_cons, not_or] at h
    have hne : ¬ k1 = k := fun h1 => h.1 h1.symm
    simp [lookupEnt, hne, ih h.2]

theorem lookupEnt_eq_none_of_not_mem (es : Entries) (k : Str)
    (h : k ∉ keysOf es) : lookupEnt es k = none := by
  induction es with
  | nil => rfl
  | cons hd tl ih =>
    obtain ⟨k1, v1⟩ := hd
    simp only [keysOf_cons, List.mem_cons, not_or] at h
    have hne : ¬ k1 = k := fun h1 => h.1 h1.symm
    simp [lookupEnt, hne, ih h.2]

theorem mem_keysOf_of_lookupEnt (es : Entries) (k : Str) (v : Value)
    (h : lookupEnt es k = some v) : k ∈ keysOf es := by
  induction es with
  | nil => simp [lookupEnt] at h
  | cons hd tl ih =>
    obtain ⟨k1, v1⟩ := hd
    by_cases hk : k1 = k
    · simp [hk]
    · simp only [lookupEnt, hk, if_false] at h
      simp [ih h]

@[simp] theorem setKey_nil (k : Str) (v : Value) : setKey [] k v = [(k, v)] := rfl

theorem setKey_cons (k1 : Str) (v1 : Value) (rest : Entries) (k : Str) (v : Value) :
    setKey ((k1, v1) :: rest) k v =
      if k1 = k then (k1, v) :: rest else (k1, v1) :: setKey rest k v := rfl

theorem lookupEnt_setKey_self (es : Entries) (k : Str) (v : Value) :
    lookupEnt (setKey es k v) k = some v := by
  induction es with
  | nil => simp [lookupEnt]
  | cons hd tl ih =>
    obtain ⟨k1, v1⟩ := hd
    by_cases hk : k1 = k
    · simp [setKey, lookupEnt, hk]
    · simp [setKey, lookupEnt, hk, ih]

theorem lookupEnt_setKey_other (es : Entries) (k k1 : Str) (v : Value)
    (h : k1 ≠ k) : lookupEnt (setKey es k1 v) k = lookupEnt es k := by
  induction es with
  | nil => simp [lookupEnt, h]
  | cons hd tl ih =>
    obtain ⟨k2, v2⟩ := hd
    by_cases hk : k2 = k1
    · subst hk
      simp [setKey, lookupEnt, h]
    · by_cases hk2 : k2 = k
      · subst hk2
        have h2 : ¬ k2 = k1 := fun hh => h (hh.symm ▸ rfl)
        simp [setKey, lookupEnt, h2]
      · simp [setKey, lookupEnt, hk, hk2, ih]

theorem setKey_append_fresh (es : Entries) (k : Str) (v : Value)
    (h : k ∉ keysOf es) : setKey es k v = es ++ [(k, v)] := by
  induction es with
  | nil => rfl
  | cons hd tl ih =>
    obtain ⟨k1, v1⟩ := hd
    simp only [keysOf_cons, List.mem_cons, not_or] at h
    have hne : ¬ k1 = k := fun h1 => h.1 h1.symm
    simp [setKey, hne, ih h.2]

theorem setKey_self_eq (es : Entries) (k : Str) (v : Value)
    (h : lookupEnt es k = some v) : setKey es k v = es := by
  induction es with
  | nil => simp [lookupEnt] at h
  | cons hd tl ih =>
    obtain ⟨k1, v1⟩ := hd
    by_cases hk : k1 = k
    · simp only [lookupEnt, hk, if_true] at h
      cases h
      simp [setKey, hk]
    · simp only [lookupEnt, hk, if_false] at h
      simp [setKey, hk, ih h]

theorem setKey_setKey (es : Entries) (k : Str) (v w : Value) :
    setKey (setKey es k v) k w = setKey es k w := by
  induction es with
  | nil => simp [setKey]
  | cons hd tl ih =>
    obtain ⟨k1, v1⟩ := hd
    by_cases hk : k1 = k
    · simp [setKey, hk]
    · simp [setKey, hk, ih]

theorem keysOf_setKey (es : Entries) (k : Str) (v : Value) :
    keysOf (setKey es k v) = if k ∈ keysOf es then keysOf es else keysOf es ++ [k] := by
  induction es with
  | nil => simp [setKey, keysOf]
  | cons hd tl ih =>
    obtain ⟨k1, v1⟩ := hd
    by_cases hk : k1 = k
    · simp [setKey, hk, keysOf]
    · have : ¬ k = k1 := fun h => hk h.symm
      simp only [setKey, hk, if_false, keysOf_cons, ih, List.mem_cons]
      by_cases hmem : k ∈ keysOf tl <;> simp [hmem, this]

/-! ## Claim C3: `retry` attempt counting, first success, waits -/

/-- The loop runs at most `rem + 1` attempts. -/
theorem retryAux_count_le {E A : Type} (f : ℕ → Except E A) (d : ℕ) (bk : Bool) :
    ∀ (rem attempt : ℕ), (retryAux f d bk attempt rem).2.1 ≤ rem + 1 := by
  intro rem
  induction rem with
  | zero =>
    intro attempt
    cases hf : f attempt <;> simp [retryAux, hf]
  | succ r ih =>
    intro attempt
    cases hf : f attempt with
    | ok a => simp [retryAux, hf]
    | error e =>
      have hc := ih (attempt + 1)
      simp [retryAux, hf]
      omega

/-- Unfolding of the loop on a failed attempt with retries remaining. -/
theorem retryAux_error_succ {E A : Type} (f : ℕ → Except E A) (d : ℕ) (bk : Bool)
    (attempt r : ℕ) (e : E) (hf : f attempt = .error e) :
    retryAux f d bk attempt (r + 1)
      = ((retryAux f d bk (attempt + 1) r).1,
          (retryAux f d bk (attempt + 1) r).2.1 + 1,
          (if bk then d * 2 ^ attempt else d) :: (retryAux f d bk (attempt + 1) r).2.2) := by
  simp [retryAux, hf]

/-- Shifting the wait list of the recursive call by one attempt. -/
theorem waitList_shift (d : ℕ) (bk : Bool) (attempt j : ℕ) :
    (if bk then d * 2 ^ attempt else d)
        :: (List.range j).map (fun i => if bk then d * 2 ^ ((attempt + 1) + i) else d)
      = (List.range (j + 1)).map (fun i => if bk then d * 2 ^ (attempt + i) else d) := by
  rw [List.range_succ_eq_map, List.map_cons, List.map_map]
  refine congrArg₂ _ (by rw [Nat.add_zero]) ?_
  apply List.map_congr_left
  intro i _
  have hh : (attempt + 1) + i = attempt + (i + 1) := by omega
  simp [Function.comp_def, hh]

/-- If the first success happens at relative offset `j`, the loop stops
there with `j + 1` attempts and one wait per preceding failure. -/
theorem retryAux_success {E A : Type} (f : ℕ → Except E A) (d : ℕ) (bk : Bool) :
    ∀ (j rem attempt : ℕ) (a : A), j ≤ rem → f (attempt + j) = .ok a →
      (∀ i < j, ∃ e, f (attempt + i) = .error e) →
      retryAux f d bk attempt rem
        = (.ok a, j + 1,
            (List.range j).map (fun i => if bk then d * 2 ^ (attempt + i) else d)) := by
  intro j
  induction j with
  | zero =>
    intro rem attempt a _ hok _
    rw [Nat.add_zero] at hok
    cases rem <;> simp [retryAux, hok]
  | succ i ih =>
    intro rem attempt a hle hok herr
    obtain ⟨e, he⟩ := herr 0 (Nat.succ_pos i)
    rw [Nat.add_zero] at he
    cases rem with
    | zero => omega
    | succ r =>
      have hok1 : f ((attempt + 1) + i) = .ok a := by
        rw [show (attempt + 1) + i = attempt + (i + 1) by omega]
        exact hok
      have herr1 : ∀ t < i, ∃ e1, f ((attempt + 1) + t) = .error e1 := by
        intro t ht
        rw [show (attempt + 1) + t = attempt + (t + 1) by omega]
        exact herr (t + 1) (by omega)
      have hrec := ih r (attempt + 1) a (by omega) hok1 herr1
      rw [retryAux_error_succ f d bk attempt r e he, hrec]
      refine Prod.ext rfl (Prod.ext rfl ?_)
      exact waitList_shift d bk attempt i

/-- If every attempt fails, the loop performs all `rem + 1` attempts,
waits after each failure except the last, and propagates the final
attempt's failure. -/
theorem retryAux_allfail {E A : Type} (f : ℕ → Except E A) (d : ℕ) (bk : Bool) :
    ∀ (rem attempt : ℕ), (∀ i ≤ rem, ∃ e, f (attempt + i) = .error e) →
      retryAux f d bk attempt rem
        = (f (attempt + rem), rem + 1,
            (List.range rem).map (fun i => if bk then d * 2 ^ (attempt + i) else d)) := by
  intro rem
  induction rem with
  | zero =>
    intro attempt h
    obtain ⟨e, he⟩ := h 0 (le_refl 0)
    rw [Nat.add_zero] at he
    rw [Nat.add_zero]
    simp [retryAux, he]
  | succ r ih =>
    intro attempt h
    obtain ⟨e, he⟩ := h 0 (Nat.zero_le _)
    rw [Nat.add_zero] at he
    have h1 : ∀ i ≤ r, ∃ e1, f ((attempt + 1) + i) = .error e1 := by
      intro i hi
      rw [show (attempt + 1) + i = attempt + (i + 1) by omega]
      exact h (i + 1) (by omega)
    have hrec := ih (attempt + 1) h1
    rw [retryAux_error_succ f d bk attempt r e he, hrec]
    refine Prod.ext ?_ (Prod.ext rfl ?_)
    · show f ((attempt + 1) + r) = f (attempt + (r + 1))
      rw [show (attempt + 1) + r = attempt + (r + 1) by omega]
    · exact waitList_shift d bk attempt r

/-- Claim C3: `retry(fn, {retries, delay, backoff})` invokes `fn` at most
`retries + 1` times; it returns the first successful result after exactly
`s + 1` attempts when attempt `s` is the first success; if every attempt
fails it performs exactly `retries + 1` attempts and propagates the final
attempt's failure; the wait after failed attempt `k` is `delay * 2^k`
with backoff and `delay` otherwise. -/
theorem retry_spec {E A : Type} (f : ℕ → Except E A) (retries delay : ℕ) (bk : Bool) :
    (retry f retries delay bk).2.1 ≤ retries + 1
    ∧ (∀ s a, s ≤ retries → f s = .ok a → (∀ i < s, ∃ e, f i = .error e) →
        retry f retries delay bk
          = (.ok a, s + 1,
              (List.range s).map (fun i => if bk then delay * 2 ^ i else delay)))
    ∧ ((∀ i ≤ retries, ∃ e, f i = .error e) →
        retry f retries delay bk
          = (f retries, retries + 1,
              (List.range retries).map (fun i => if bk then delay * 2 ^ i else delay))) := by
  refine ⟨retryAux_count_le f delay bk retries 0, ?_, ?_⟩
  · intro s a hs hok herr
    have h := retryAux_success f delay bk s retries 0 a hs (by simpa using hok)
      (by simpa using herr)
    simpa using h
  · intro h
    have h2 := retryAux_allfail f delay bk retries 0 (by simpa using h)
    simpa using h2

/-- Witness for `retry_spec`: a success at attempt 1 (with backoff wait
`[5]`) and an always-failing operation with `retries = 2` (3 attempts,
waits `[5, 10]`, final failure raised). -/
theorem retry_spec_witness :
    retry (fun k => if k = 1 then (Except.ok 42 : Except String ℕ) else .error "e")
        3 5 true
      = (.ok 42, 2, [5])
    ∧ retry (fun _ => (Except.error "e" : Except String ℕ)) 2 5 true
      = (.error "e", 3, [5, 10]) := by
  constructor
  · have h := (retry_spec
        (fun k => if k = 1 then (Except.ok 42 : Except String ℕ) else .error "e")
        3 5 true).2.1 1 42 (by norm_num) (by norm_num) ?_
    · rw [h]
      simp [List.range_succ]
    · intro i hi
      interval_cases i
      exact ⟨"e", by norm_num⟩
  · have h := (retry_spec (fun _ => (Except.error "e" : Except String ℕ))
        2 5 true).2.2 (fun i _ => ⟨"e", rfl⟩)
    rw [h]
    simp [List.range_succ]

/-! ## Claim C4: `truncate` / `slugify` maximum output length -/

/-- `s.slice(0, e)` has length at most `e` for nonnegative `e`. -/
theorem jsSliceTo_length_le (s : Str) (e : ℤ) (he : 0 ≤ e) :
    ((jsSliceTo s e).length : ℤ) ≤ e := by
  rw [jsSliceTo, if_neg (by omega)]
  have h1 : (jsSliceTo s e).length ≤ e.toNat := by
    rw [jsSliceTo, if_neg (by omega)]
    simpa using List.length_take_le _ _
  have h2 : (e.toNat : ℤ) = e := Int.toNat_of_nonneg he
  have h3 := List.length_take_le e.toNat s
  omega

/-- Claim C4, counterexample: with the ellipsis flag and `maxLength = 1`,
`truncate("hello", 1, true)` is `"hel..."` (the negative slice end keeps
three characters), which is longer than `maxLength`. -/
theorem truncate_maxLength_violated :
    truncate "hello".toList 1 true = "hel...".toList
    ∧ ¬ ((truncate "hello".toList 1 true).length : ℤ) ≤ 1 := by
  constructor <;> decide

/-- Claim C4 (amended): `truncate` returns `text` unchanged when it fits;
when `text` is longer than `maxLength`, the output length is at most
`maxLength` provided `maxLength ≥ 0` without the ellipsis flag, or
`maxLength ≥ 3` with it (for `0 ≤ maxLength < 3` with ellipsis the output
is up to three characters of `text` plus `"..."`, exceeding `maxLength`);
`slugify(title, length)` has length at most `length` for `length ≥ 0`. -/
theorem truncate_slugify_length_bound (text : Str) (maxLength : ℤ)
    (title : Str) (len : ℤ) :
    ((text.length : ℤ) ≤ maxLength →
      truncate text maxLength true = text ∧ truncate text maxLength false = text)
    ∧ (maxLength < (text.length : ℤ) → 0 ≤ maxLength →
        ((truncate text maxLength false).length : ℤ) ≤ maxLength)
    ∧ (maxLength < (text.length : ℤ) → 3 ≤ maxLength →
        ((truncate text maxLength true).length : ℤ) ≤ maxLength)
    ∧ (0 ≤ len → ((slugify title len).length : ℤ) ≤ len) := by
  refine ⟨fun h => ⟨?_, ?_⟩, fun h h0 => ?_, fun h h3 => ?_, fun h0 => ?_⟩
  · rw [truncate, if_pos h]
  · rw [truncate, if_pos h]
  · rw [truncate, if_neg (by omega)]
    simp only [Bool.false_eq_true, if_false]
    exact jsSliceTo_length_le text maxLength h0
  · rw [truncate, if_neg (by omega), if_pos rfl]
    rw [List.length_append]
    have hb := jsSliceTo_length_le text (maxLength - 3) (by omega)
    have hd : ((['.', '.', '.'] : Str).length : ℤ) = 3 := rfl
    push_cast
    omega
  · rw [slugify]
    exact jsSliceTo_length_le _ len h0

/-- Witness for `truncate_slugify_length_bound` on concrete inputs. -/
theorem truncate_slugify_length_bound_witness :
    truncate "hi".toList 5 true = "hi".toList
    ∧ ((truncate "hello".toList 3 false).length : ℤ) ≤ 3
    ∧ ((truncate "hello".toList 3 true).length : ℤ) ≤ 3
    ∧ ((slugify "Hello World!".toList 5).length : ℤ) ≤ 5 :=
  ⟨((truncate_slugify_length_bound "hi".toList 5 [] 0).1 (by decide)).1,
   (truncate_slugify_length_bound "hello".toList 3 [] 0).2.1 (by decide) (by decide),
   (truncate_slugify_length_bound "hello".toList 3 [] 0).2.2.1 (by decide) (by decide),
   (truncate_slugify_length_bound [] 0 "Hello World!".toList 5).2.2.2 (by decide)⟩

/-! ## Claim C1: `throttle` immediate call and trailing call -/

/-- While a trailing call is pending, every further wrapper call before
the interval's end is a complete no-op, and at the end of the run the
pending call fires once with its captured arguments. -/
theorem runThrottleGo_suppressed {A : Type} (ms t0 : ℤ) (a1 : A)
    (rest : List (ℤ × A)) (hr : ∀ p ∈ rest, p.1 < t0 + ms) :
    runThrottleGo ms ⟨some (t0 + ms, a1), t0⟩ rest = [(t0 + ms, a1)] := by
  induction rest with
  | nil => simp [runThrottleGo]
  | cons p r ih =>
    obtain ⟨t, a⟩ := p
    have ht : t < t0 + ms := hr (t, a) (by simp)
    rw [runThrottleGo]
    simp only [fireDue, if_neg (show ¬ (t0 + ms ≤ t) by omega)]
    simp only [throttleCall, if_neg (show ¬ (ms - (t - t0) ≤ 0) by omega)]
    simpa using ih (fun p hp => hr p (by simp [hp]))

/-- Claim C1, counterexample: three instant calls with arguments 1, 2, 3
produce the immediate call and one trailing call carrying the FIRST
suppressed call's arguments (2), not the most recent (3): a call that
arrives while a trailing call is already scheduled is dropped
(`else if (timer === undefined)`). -/
theorem throttle_trailing_not_most_recent :
    runThrottle 100 [((100 : ℤ), (1 : ℕ)), (101, 2), (102, 3)] = [(100, 1), (200, 2)]
    ∧ runThrottle 100 [((100 : ℤ), (1 : ℕ)), (101, 2), (102, 3)] ≠ [(100, 1), (200, 3)] := by
  constructor <;> decide

/-- Claim C1 (amended): for a throttled wrapper called first at `t0` (with
the interval elapsed, as for a real clock) and then any number of further
times strictly inside `(t0, t0 + ms)`: the first call runs `fn`
synchronously at `t0`; no further call runs `fn` immediately; if there is
at least one further call, exactly one trailing call fires at `t0 + ms`
carrying the arguments of the FIRST suppressed call (two instant calls
thus yield one immediate call plus one trailing call with the second
call's arguments, two calls total). -/
theorem throttle_immediate_and_trailing {A : Type} (ms t0 : ℤ) (a0 : A)
    (rest : List (ℤ × A)) (h0 : ms ≤ t0) (hr : ∀ p ∈ rest, p.1 < t0 + ms) :
    runThrottle ms ((t0, a0) :: rest)
      = (t0, a0) :: (match rest with
          | [] => []
          | (_, a1) :: _ => [(t0 + ms, a1)]) := by
  rw [runThrottle, runThrottleGo]
  simp only [fireDue]
  simp only [throttleCall, if_pos (show ms - (t0 - 0) ≤ 0 by omega)]
  cases rest with
  | nil => simp [runThrottleGo]
  | cons p r =>
    obtain ⟨t1, a1⟩ := p
    rw [runThrottleGo]
    have ht1 : t1 < t0 + ms := hr (t1, a1) (by simp)
    simp only [fireDue]
    simp only [throttleCall, if_neg (show ¬ (ms - (t1 - t0) ≤ 0) by omega)]
    have harr : t1 + (ms - (t1 - t0)) = t0 + ms := by ring
    simp only [harr]
    have hsup := runThrottleGo_suppressed ms t0 a1 r (fun p hp => hr p (by simp [hp]))
    simpa using hsup

/-- Witness for `throttle_immediate_and_trailing`: interval 100, calls at
100 and 150; output is the immediate call and the trailing call at 200
with the second call's arguments. -/
theorem throttle_immediate_and_trailing_witness :
    runThrottle 100 [((100 : ℤ), (7 : ℕ)), (150, 8)] = [(100, 7), (200, 8)] := by
  have h := throttle_immediate_and_trailing 100 100 7 [((150 : ℤ), (8 : ℕ))]
    (by norm_num) (by decide)
  simpa using h

/-! ## Claim C5: `merge` recursive structural merge -/

/-- Folding an object with fresh, unique keys into an accumulator appends
it unchanged (in particular `merge(x) = x`, so the source's inner call
`merge(result[key], val)` equals `mergeEntries result[key] val`). -/
theorem mergeEntries_append_fresh (es : Entries) :
    ∀ (acc : Entries), (∀ k ∈ keysOf es, k ∉ keysOf acc) → (keysOf es).Nodup →
      mergeEntries acc es = acc ++ es := by
  induction es with
  | nil => intro acc _ _; simp [mergeEntries]
  | cons hd rest ih =>
    obtain ⟨k, v⟩ := hd
    intro acc hdis hnod
    have hka : k ∉ keysOf acc := hdis k (by simp)
    have hlk : lookupD acc k = .undef := by
      rw [lookupD, lookupEnt_eq_none_of_not_mem acc k hka]
      rfl
    have hcond : (isPlainObj v && isPlainObj (lookupD acc k)) = false := by
      rw [hlk]
      simp [isPlainObj]
    rw [mergeEntries, dif_neg (by simp [hcond])]
    rw [setKey_append_fresh acc k v hka]
    simp only [List.nodup_cons, keysOf_cons] at hnod
    rw [ih (acc ++ [(k, v)]) ?_ hnod.2]
    · simp
    · intro k1 hk1
      simp only [keysOf_append, List.mem_append] at *
      rintro (h | h)
      · exact hdis k1 (by simp [hk1]) h
      · simp only [keysOf, List.map_cons, List.map_nil, List.mem_singleton] at h
        subst h
        exact hnod.1 hk1

/-- `mergeEntries [] es = es` for unique keys. -/
theorem mergeEntries_nil_eq (es : Entries) (h : (keysOf es).Nodup) :
    mergeEntries [] es = es := by
  simpa using mergeEntries_append_fresh es [] (by simp [keysOf]) h

/-- One-step unfolding of `mergeEntries` on a nonempty source. -/
theorem mergeEntries_cons (acc : Entries) (k : Str) (v : Value) (rest : Entries) :
    mergeEntries acc ((k, v) :: rest)
      = if isPlainObj v && isPlainObj (lookupD acc k) then
          mergeEntries
            (setKey acc k (.obj (mergeEntries (objEntries (lookupD acc k)) (objEntries v))))
            rest
        else mergeEntries (setKey acc k v) rest := by
  rw [mergeEntries.eq_def]
  rfl

/-- Claim C5: one merge pass over a later source `b` into the accumulated
result `a` merges plain-object values recursively when both sides hold
plain objects at a key, replaces the value wholesale otherwise, and keeps
`a`'s value for keys `b` lacks; and the two documented examples:
`merge({a:1,b:{c:2}}, {b:{d:3}})` equals `{a:1,b:{c:2,d:3}}` and
`merge({a:{b:1}}, {a:[1,2]})` equals `{a:[1,2]}`. -/
theorem merge_recursive_spec :
    (∀ (a b : Entries) (k : Str), (keysOf b).Nodup →
      (∀ ao bo, lookupEnt a k = some (.obj ao) → lookupEnt b k = some (.obj bo) →
        lookupEnt (mergeEntries a b) k = some (.obj (mergeEntries ao bo)))
      ∧ (∀ vb, lookupEnt b k = some vb →
          (isPlainObj (lookupD a k) && isPlainObj vb) = false →
          lookupEnt (mergeEntries a b) k = some vb)
      ∧ (lookupEnt b k = none → lookupEnt (mergeEntries a b) k = lookupEnt a k))
    ∧ merge [[("a".toList, .num 1), ("b".toList, .obj [("c".toList, .num 2)])],
             [("b".toList, .obj [("d".toList, .num 3)])]]
        = [("a".toList, .num 1),
           ("b".toList, .obj [("c".toList, .num 2), ("d".toList, .num 3)])]
    ∧ merge [[("a".toList, .obj [("b".toList, .num 1)])],
             [("a".toList, .arr [.num 1, .num 2])]]
        = [("a".toList, .arr [.num 1, .num 2])] := by
  refine ⟨?_, ?_, ?_⟩
  · intro a b
    induction b generalizing a with
    | nil =>
      intro k _
      refine ⟨fun ao bo _ hb => by simp at hb, fun vb hb _ => by simp at hb, fun _ => ?_⟩
      simp [mergeEntries]
    | cons hd rest ih =>
      obtain ⟨k1, v1⟩ := hd
      intro k hnod
      simp only [keysOf_cons, List.nodup_cons] at hnod
      rw [mergeEntries_cons]
      by_cases hk : k1 = k
      · subst hk
        have hrn : lookupEnt rest k1 = none :=
          lookupEnt_eq_none_of_not_mem rest k1 hnod.1
        refine ⟨?_, ?_, ?_⟩
        · intro ao bo hla hlb
          rw [lookupEnt_cons, if_pos rfl] at hlb
          injection hlb with hv1
          subst hv1
          have hld : lookupD a k1 = .obj ao := by rw [lookupD, hla]; rfl
          have hcond : (isPlainObj (Value.obj bo) && isPlainObj (lookupD a k1)) = true := by
            rw [hld]; rfl
          rw [if_pos hcond]
          obtain ⟨_, _, ih3⟩ := ih (setKey a k1 (.obj (mergeEntries
            (objEntries (lookupD a k1)) (objEntries (Value.obj bo))))) k1 hnod.2
          rw [ih3 hrn, lookupEnt_setKey_self, hld]
          rfl
        · intro vb hlb hnotobj
          rw [lookupEnt_cons, if_pos rfl] at hlb
          injection hlb with hv1
          subst hv1
          have hcond : (isPlainObj v1 && isPlainObj (lookupD a k1)) = false := by
            rw [Bool.and_comm]
            exact hnotobj
          rw [if_neg (by simp [hcond])]
          obtain ⟨_, _, ih3⟩ := ih (setKey a k1 v1) k1 hnod.2
          rw [ih3 hrn, lookupEnt_setKey_self]
        · intro hbnone
          rw [lookupEnt_cons, if_pos rfl] at hbnone
          exact Option.noConfusion hbnone
      · have hbk : lookupEnt ((k1, v1) :: rest) k = lookupEnt rest k := by
          rw [lookupEnt_cons, if_neg hk]
        by_cases hcond : (isPlainObj v1 && isPlainObj (lookupD a k1)) = true
        · rw [if_pos hcond]
          obtain ⟨ih1, ih2, ih3⟩ := ih (setKey a k1 (.obj (mergeEntries
            (objEntries (lookupD a k1)) (objEntries v1)))) k hnod.2
          refine ⟨?_, ?_, ?_⟩
          · intro ao bo hla hlb
            rw [hbk] at hlb
            exact ih1 ao bo (by rw [lookupEnt_setKey_other a k k1 _ hk]; exact hla) hlb
          · intro vb hlb hnb
            rw [hbk] at hlb
            refine ih2 vb hlb ?_
            rw [lookupD, lookupEnt_setKey_other a k k1 _ hk]
            exact hnb
          · intro hbnone
            rw [hbk] at hbnone
            rw [ih3 hbnone, lookupEnt_setKey_other a k k1 _ hk]
        · rw [if_neg hcond]
          obtain ⟨ih1, ih2, ih3⟩ := ih (setKey a k1 v1) k hnod.2
          refine ⟨?_, ?_, ?_⟩
          · intro ao bo hla hlb
            rw [hbk] at hlb
            exact ih1 ao bo (by rw [lookupEnt_setKey_other a k k1 _ hk]; exact hla) hlb
          · intro vb hlb hnb
            rw [hbk] at hlb
            refine ih2 vb hlb ?_
            rw [lookupD, lookupEnt_setKey_other a k k1 _ hk]
            exact hnb
          · intro hbnone
            rw [hbk] at hbnone
            rw [ih3 hbnone, lookupEnt_setKey_other a k k1 _ hk]
  · simp [merge, mergeEntries_cons, mergeEntries, setKey, lookupD, lookupEnt,
      isPlainObj, objEntries]
  · simp [merge, mergeEntries_cons, mergeEntries, setKey, lookupD, lookupEnt,
      isPlainObj, objEntries]

/-- Witness for `merge_recursive_spec`'s quantified part: merging
`{x: {p: 1}}` with `{x: {q: 2}}` merges the nested objects recursively. -/
theorem merge_recursive_spec_witness :
    lookupEnt
        (mergeEntries [("x".toList, .obj [("p".toList, .num 1)])]
          [("x".toList, .obj [("q".toList, .num 2)])]) "x".toList
      = some (.obj (mergeEntries [("p".toList, .num 1)] [("q".toList, .num 2)])) :=
  ((merge_recursive_spec.1 [("x".toList, .obj [("p".toList, .num 1)])]
      [("x".toList, .obj [("q".toList, .num 2)])] "x".toList (by decide)).1
    [("p".toList, .num 1)] [("q".toList, .num 2)] rfl rfl)



/-! ## Claim C6: `diff` keeps exactly the differing key paths -/

/-- `containsKey` decides key membership. -/
theorem containsKey_iff (es : Entries) (k : Str) :
    containsKey es k = true ↔ k ∈ keysOf es := by
  simp [containsKey]

/-- One-step unfolding of `diffOldA` on a nonempty key list. -/
theorem diffOldA_cons (b : Entries) (k : Str) (va : Value) (rest : Entries) :
    diffOldA b ((k, va) :: rest)
      = (if deepEqual va (lookupD b k) then []
         else if isPlainObj va && isPlainObj (lookupD b k) then
           if (diffOldA (objEntries (lookupD b k)) (objEntries va)
                ++ diffNewB (objEntries va) (objEntries (lookupD b k))).isEmpty then []
           else [(k, .obj (diffOldA (objEntries (lookupD b k)) (objEntries va)
                ++ diffNewB (objEntries va) (objEntries (lookupD b k))))]
         else [(k, lookupD b k)]) ++ diffOldA b rest := by
  rw [diffOldA.eq_def]
  rfl

/-- Keys produced by the `a`-side loop come from `a`. -/
theorem keysOf_diffOldA_subset (b : Entries) :
    ∀ (l : Entries) (k : Str), k ∈ keysOf (diffOldA b l) → k ∈ keysOf l := by
  intro l
  induction l with
  | nil => simp [diffOldA]
  | cons hd rest ih =>
    obtain ⟨k1, va⟩ := hd
    intro k hk
    rw [diffOldA_cons, keysOf_append, List.mem_append] at hk
    rcases hk with hk | hk
    · split_ifs at hk <;> simp_all [keysOf]
    · exact List.mem_cons_of_mem _ (ih k hk)

/-- Keys produced by the `b`-only loop come from `b`. -/
theorem keysOf_diffNewB_subset (a : Entries) :
    ∀ (l : Entries) (k : Str), k ∈ keysOf (diffNewB a l) → k ∈ keysOf l := by
  intro l
  induction l with
  | nil => simp [diffNewB]
  | cons hd rest ih =>
    obtain ⟨k1, vb⟩ := hd
    intro k hk
    rw [diffNewB, keysOf_append, List.mem_append] at hk
    rcases hk with hk | hk
    · split_ifs at hk <;> simp_all [keysOf]
    · exact List.mem_cons_of_mem _ (ih k hk)

/-- A key whose values are deeply equal is not emitted by the `a`-side
loop. -/
theorem diffOldA_not_mem_of_deepEqual (b : Entries) :
    ∀ (a : Entries) (k : Str), (keysOf a).Nodup →
      deepEqual (lookupD a k) (lookupD b k) = true →
      k ∉ keysOf (diffOldA b a) := by
  intro a
  induction a with
  | nil => simp [diffOldA]
  | cons hd rest ih =>
    obtain ⟨k1, va⟩ := hd
    intro k hnod hdeq
    simp only [keysOf_cons, List.nodup_cons] at hnod
    rw [diffOldA_cons, keysOf_append]
    rw [List.mem_append]
    rintro (hk | hk)
    · by_cases hk1 : k1 = k
      · subst hk1
        have hva : lookupD ((k1, va) :: rest) k1 = va := by
          simp [lookupD, lookupEnt]
        rw [hva] at hdeq
        rw [if_pos hdeq] at hk
        simp [keysOf] at hk
      · split_ifs at hk <;> simp_all [keysOf]
    · by_cases hk1 : k1 = k
      · subst hk1
        exact hnod.1 (keysOf_diffOldA_subset b rest k1 hk)
      · have hstep : lookupD ((k1, va) :: rest) k = lookupD rest k := by
          simp [lookupD, lookupEnt, hk1]
        rw [hstep] at hdeq
        exact ih k hnod.2 hdeq hk

/-- Membership in the `b`-only loop's output forces a genuinely new,
non-equal value. -/
theorem diffNewB_mem (a : Entries) :
    ∀ (b : Entries) (k : Str), (keysOf b).Nodup →
      k ∈ keysOf (diffNewB a b) →
      containsKey a k = false ∧ deepEqual .undef (lookupD b k) = false := by
  intro b
  induction b with
  | nil => simp [diffNewB]
  | cons hd rest ih =>
    obtain ⟨k1, vb⟩ := hd
    intro k hnod hk
    simp only [keysOf_cons, List.nodup_cons] at hnod
    rw [diffNewB, keysOf_append, List.mem_append] at hk
    rcases hk with hk | hk
    · by_cases hc : containsKey a k1
      · rw [if_pos hc] at hk
        simp [keysOf] at hk
      · rw [if_neg hc] at hk
        by_cases hd : deepEqual .undef vb
        · rw [if_pos hd] at hk
          simp [keysOf] at hk
        · rw [if_neg hd] at hk
          simp only [keysOf, List.map_cons, List.map_nil, List.mem_singleton] at hk
          subst hk
          have hvb : lookupD ((k, vb) :: rest) k = vb := by simp [lookupD, lookupEnt]
          rw [hvb]
          exact ⟨Bool.of_not_eq_true hc, Bool.of_not_eq_true hd⟩
    · by_cases hk1 : k1 = k
      · subst hk1
        exact absurd (keysOf_diffNewB_subset a rest k1 hk) hnod.1
      · have hstep : lookupD ((k1, vb) :: rest) k = lookupD rest k := by
          simp [lookupD, lookupEnt, hk1]
        rw [hstep]
        exact ih k hnod.2 hk

/-- For a key of `a` whose values differ and are not both plain objects,
the `a`-side loop emits the entire value from `b`. -/
theorem diffOldA_lookup_replace (b : Entries) :
    ∀ (a : Entries) (k : Str), (keysOf a).Nodup → k ∈ keysOf a →
      deepEqual (lookupD a k) (lookupD b k) = false →
      (isPlainObj (lookupD a k) && isPlainObj (lookupD b k)) = false →
      lookupEnt (diffOldA b a) k = some (lookupD b k) := by
  intro a
  induction a with
  | nil => simp [keysOf]
  | cons hd rest ih =>
    obtain ⟨k1, va⟩ := hd
    intro k hnod hmem hdeq hobj
    simp only [keysOf_cons, List.nodup_cons] at hnod
    rw [diffOldA_cons]
    by_cases hk1 : k1 = k
    · subst hk1
      have hva : lookupD ((k1, va) :: rest) k1 = va := by simp [lookupD, lookupEnt]
      rw [hva] at hdeq hobj
      rw [if_neg (by simp [hdeq]), if_neg (by simp [hobj])]
      simp [lookupEnt]
    · have hstep : lookupD ((k1, va) :: rest) k = lookupD rest k := by
        simp [lookupD, lookupEnt, hk1]
      rw [hstep] at hdeq hobj
      have hmem1 : k ∈ keysOf rest := by
        rcases List.mem_cons.mp hmem with h | h
        · exact absurd h.symm hk1
        · exact h
      have hhead : ∀ (x : Entries), keysOf x ⊆ [k1] → lookupEnt (x ++ diffOldA b rest) k
          = lookupEnt (diffOldA b rest) k := by
        intro x hx
        refine lookupEnt_append_right x _ k (fun hmm => hk1 ?_)
        have := hx hmm
        simp at this
        exact this.symm
      have hres := ih k hnod.2 hmem1 hdeq hobj
      have hsub : keysOf (if deepEqual va (lookupD b k1) then ([] : Entries)
          else if isPlainObj va && isPlainObj (lookupD b k1) then
            if (diffOldA (objEntries (lookupD b k1)) (objEntries va)
                ++ diffNewB (objEntries va) (objEntries (lookupD b k1))).isEmpty then []
            else [(k1, .obj (diffOldA (objEntries (lookupD b k1)) (objEntries va)
                ++ diffNewB (objEntries va) (objEntries (lookupD b k1))))]
          else [(k1, lookupD b k1)]) ⊆ [k1] := by
        split_ifs <;> simp [keysOf]
      rw [hhead _ hsub, hres]

/-- For a key only in `b` with a non-equal value, the `b`-only loop emits
the entire value from `b`. -/
theorem diffNewB_lookup (a : Entries) :
    ∀ (b : Entries) (k : Str), (keysOf b).Nodup → k ∈ keysOf b →
      containsKey a k = false → deepEqual .undef (lookupD b k) = false →
      lookupEnt (diffNewB a b) k = some (lookupD b k) := by
  intro b
  induction b with
  | nil => simp [keysOf]
  | cons hd rest ih =>
    obtain ⟨k1, vb⟩ := hd
    intro k hnod hmem hcont hdeq
    simp only [keysOf_cons, List.nodup_cons] at hnod
    rw [diffNewB]
    by_cases hk1 : k1 = k
    · subst hk1
      have hvb : lookupD ((k1, vb) :: rest) k1 = vb := by simp [lookupD, lookupEnt]
      rw [hvb] at hdeq
      rw [if_neg (by simp [hcont]), if_neg (by simp [hdeq])]
      simp [lookupEnt, hvb]
    · have hstep : lookupD ((k1, vb) :: rest) k = lookupD rest k := by
        simp [lookupD, lookupEnt, hk1]
      rw [hstep] at hdeq
      have hmem1 : k ∈ keysOf rest := by
        rcases List.mem_cons.mp hmem with h | h
        · exact absurd h.symm hk1
        · exact h
      have hres := ih k hnod.2 hmem1 hcont hdeq
      have hhead : ∀ (x : Entries), keysOf x ⊆ [k1] →
          lookupEnt (x ++ diffNewB a rest) k = lookupEnt (diffNewB a rest) k := by
        intro x hx
        refine lookupEnt_append_right x _ k (fun hmm => hk1 ?_)
        have := hx hmm
        simp at this
        exact this.symm
      have hsub : keysOf (if containsKey a k1 then ([] : Entries)
          else if deepEqual .undef vb then [] else [(k1, vb)]) ⊆ [k1] := by
        split_ifs <;> simp [keysOf]
      rw [hhead _ hsub, hres, hstep]

/-- Claim C6: `diff(a, b)` contains no key whose values are deeply equal,
and for a key (of either object) whose values differ and are not both
plain mappings the entire value from `b` is returned; and the two
documented examples: `diff({tags:[1,2]}, {tags:[1,3]})` equals
`{tags:[1,3]}` and `diff({a:1,b:{c:2,d:3}}, {a:1,b:{c:5,d:3}})` equals
`{b:{c:5}}` (nested mappings are diffed recursively, keeping only the
differing sub-paths). -/
theorem diff_spec :
    (∀ (a b : Entries) (k : Str), (keysOf a).Nodup → (keysOf b).Nodup →
      (deepEqual (lookupD a k) (lookupD b k) = true → k ∉ keysOf (diff a b))
      ∧ ((k ∈ keysOf a ∨ k ∈ keysOf b) →
          deepEqual (lookupD a k) (lookupD b k) = false →
          (isPlainObj (lookupD a k) && isPlainObj (lookupD b k)) = false →
          lookupEnt (diff a b) k = some (lookupD b k)))
    ∧ diff [("tags".toList, .arr [.num 1, .num 2])]
        [("tags".toList, .arr [.num 1, .num 3])]
      = [("tags".toList, .arr [.num 1, .num 3])]
    ∧ diff [("a".toList, .num 1), ("b".toList, .obj [("c".toList, .num 2), ("d".toList, .num 3)])]
        [("a".toList, .num 1), ("b".toList, .obj [("c".toList, .num 5), ("d".toList, .num 3)])]
      = [("b".toList, .obj [("c".toList, .num 5)])] := by
  refine ⟨?_, ?_, ?_⟩
  · intro a b k hna hnb
    constructor
    · intro hdeq
      rw [diff, keysOf_append, List.mem_append]
      rintro (hk | hk)
      · exact diffOldA_not_mem_of_deepEqual b a k hna hdeq hk
      · obtain ⟨hcont, hne⟩ := diffNewB_mem a b k hnb hk
        have hka : k ∉ keysOf a := by
          intro hmm
          rw [(containsKey_iff a k).mpr hmm] at hcont
          exact Bool.noConfusion hcont
        have hundef : lookupD a k = .undef := by
          rw [lookupD, lookupEnt_eq_none_of_not_mem a k hka]
          rfl
        rw [hundef] at hdeq
        rw [hdeq] at hne
        exact Bool.noConfusion hne
    · intro hmem hdeq hobj
      rw [diff]
      by_cases hka : k ∈ keysOf a
      · have hres := diffOldA_lookup_replace b a k hna hka hdeq hobj
        rw [lookupEnt_append_left _ _ k (mem_keysOf_of_lookupEnt _ k _ hres)]
        exact hres
      · have hkb : k ∈ keysOf b := by
          rcases hmem with h | h
          · exact absurd h hka
          · exact h
        have hold : k ∉ keysOf (diffOldA b a) :=
          fun hmm => hka (keysOf_diffOldA_subset b a k hmm)
        rw [lookupEnt_append_right _ _ k hold]
        have hundef : lookupD a k = .undef := by
          rw [lookupD, lookupEnt_eq_none_of_not_mem a k hka]
          rfl
        rw [hundef] at hdeq
        have hcont : containsKey a k = false := by
          cases h : containsKey a k
          · rfl
          · exact absurd ((containsKey_iff a k).mp h) hka
        exact diffNewB_lookup a b k hnb hkb hcont hdeq
  · simp [diff, diffOldA_cons, diffOldA, diffNewB, deepEqual, deepEqualList,
      deepEqualEntries, strictEq, isNullish, typeOf, lookupD, lookupEnt,
      containsKey, keysOf, isPlainObj, objEntries]
  · simp [diff, diffOldA_cons, diffOldA, diffNewB, deepEqual, deepEqualList,
      deepEqualEntries, strictEq, isNullish, typeOf, lookupD, lookupEnt,
      containsKey, keysOf, isPlainObj, objEntries]

/-- Witness for `diff_spec`'s quantified part: a key with deeply equal
values is absent, and a differing scalar is replaced by `b`'s value. -/
theorem diff_spec_witness :
    "x".toList ∉ keysOf (diff [("x".toList, Value.num 1)] [("x".toList, Value.num 1)])
    ∧ lookupEnt (diff [("x".toList, Value.num 1)] [("x".toList, Value.num 2)]) "x".toList
      = some (lookupD [("x".toList, Value.num 2)] "x".toList) :=
  ⟨((diff_spec.1 [("x".toList, Value.num 1)] [("x".toList, Value.num 1)] "x".toList
      (by decide) (by decide)).1
      (by simp [lookupD, lookupEnt, deepEqual, strictEq])),
   ((diff_spec.1 [("x".toList, Value.num 1)] [("x".toList, Value.num 2)] "x".toList
      (by decide) (by decide)).2
      (Or.inl (by simp [keysOf]))
      (by simp [lookupD, lookupEnt, deepEqual, strictEq, isNullish, typeOf])
      (by simp [lookupD, lookupEnt, isPlainObj]))⟩

/-! ## Claim C2: `formatBytes` / `toBytes` unit-boundary round-trip -/

/-- `formatBytes(1024^i)` prints `1` followed by the `i`-th unit name. -/
theorem formatBytes_pow (i : ℕ) :
    formatBytes (1024 ^ i) 2
      = '1' :: ' ' :: (["Bytes".toList, "KB".toList, "MB".toList, "GB".toList,
          "TB".toList, "PB".toList].getD i "undefined".toList) := by
  have hne : (1024 : ℕ) ^ i ≠ 0 := pow_ne_zero _ (by norm_num)
  have hlog : Nat.log 1024 (1024 ^ i) = i := Nat.log_pow (by norm_num) i
  have hdiv : ((1024 ^ i : ℕ) : ℚ) / (1024 : ℚ) ^ i = 1 := by
    push_cast
    exact div_self (pow_ne_zero _ (by norm_num))
  simp only [formatBytes, if_neg hne, hlog, hdiv]
  norm_num
  have h2 : Int.toNat 2 = 2 := rfl
  rw [h2]
  have hfl : (⌊(10:ℚ) ^ (2:ℕ) + 1/2⌋ : ℤ) = 100 := by norm_num
  rw [hfl]
  have hrs : renderScaled ((100:ℤ)).toNat 2 = ['1'] := by decide
  rw [hrs]
  simp

/-- Claim C2, counterexample: the round-trip fails at the unit boundaries
`1024^0` (printed as `1 Bytes`, but `toBytes` accepts only the unit `B`)
and `1024^5` (printed as `1 PB`, a unit `toBytes` does not know). -/
theorem toBytes_formatBytes_boundary_fails :
    toBytes (formatBytes (1024 ^ 0) 2) ≠ some ((1024 : ℚ) ^ 0)
    ∧ toBytes (formatBytes (1024 ^ 5) 2) ≠ some ((1024 : ℚ) ^ 5) := by
  rw [formatBytes_pow, formatBytes_pow]
  constructor <;> simp [toBytes, trimWs, isWsJS, isDigitChar, digitsVal]

/-- Claim C2 (amended): `toBytes(formatBytes(1024^i))` recovers `1024^i`
exactly for the intermediate units KB, MB, GB, TB, i.e. `1 ≤ i ≤ 4`; the
boundary exponents 0 (`Bytes`) and 5 (`PB`) produce unit names outside
`toBytes`' grammar and yield `undefined`. -/
theorem toBytes_formatBytes_roundtrip (i : ℕ) (h1 : 1 ≤ i) (h2 : i ≤ 4) :
    toBytes (formatBytes (1024 ^ i) 2) = some ((1024 : ℚ) ^ i) := by
  interval_cases i <;>
    (rw [formatBytes_pow]
     simp [toBytes, trimWs, isWsJS, isDigitChar, digitsVal]
     try norm_num)

/-- Witness for `toBytes_formatBytes_roundtrip` at `i = 1`:
`toBytes(formatBytes(1024)) == 1024`. -/
theorem toBytes_formatBytes_roundtrip_witness :
    toBytes (formatBytes (1024 ^ 1) 2) = some ((1024 : ℚ) ^ 1) :=
  toBytes_formatBytes_roundtrip 1 (le_refl 1) (by norm_num)

/-! ## Claim C8: `chunk` concatenation and chunk sizes -/

/-- `chunkPos` of a nonempty list is nonempty. -/
theorem chunkPos_ne_nil (s : ℕ) (l : List α) (h : l ≠ []) : chunkPos l s ≠ [] := by
  match l with
  | [] => exact absurd rfl h
  | x :: xs =>
    rw [chunkPos]
    simp

/-- Concatenating the chunks restores the list. -/
theorem chunkPos_join (s : ℕ) (l : List α) : (chunkPos l s).flatten = l := by
  generalize hn : l.length = n
  induction n using Nat.strong_induction_on generalizing l with
  | _ n ih =>
    match l with
    | [] => simp [chunkPos]
    | x :: xs =>
      rw [chunkPos]
      rw [List.flatten_cons]
      rw [ih (((x :: xs).drop (s + 1)).length)
        (by simp only [List.length_drop, List.length_cons] at hn ⊢; omega) _ rfl]
      exact List.take_append_drop _ _

/-- Every chunk except possibly the last has full length. -/
theorem chunkPos_sizes (s : ℕ) (l : List α) :
    ∀ c ∈ (chunkPos l s).dropLast, c.length = s + 1 := by
  generalize hn : l.length = n
  induction n using Nat.strong_induction_on generalizing l with
  | _ n ih =>
    match l with
    | [] => simp [chunkPos]
    | x :: xs =>
      rw [chunkPos]
      intro c hc
      by_cases hdrop : (x :: xs).drop (s + 1) = []
      · rw [hdrop] at hc
        simp [chunkPos] at hc
      · have hne := chunkPos_ne_nil s _ hdrop
        rw [List.dropLast_cons_of_ne_nil hne] at hc
        rcases List.mem_cons.mp hc with hcx | hcm
        · subst hcx
          rw [List.length_take]
          have hlen : s + 1 < (x :: xs).length := by
            by_contra hlt
            exact hdrop (List.drop_eq_nil_of_le (by omega))
          omega
        · exact ih (((x :: xs).drop (s + 1)).length)
            (by simp only [List.length_drop, List.length_cons] at hn ⊢; omega) _ rfl c hcm

/-- Claim C8: for `n > 0` the chunks of `chunk(a, n)` concatenate to `a`
and all but possibly the last have length exactly `n`; for `n ≤ 0` the
result is `[]`. -/
theorem chunk_concat_and_sizes {α : Type} (a : List α) (n : ℤ) :
    (0 < n →
      (chunk a n).flatten = a ∧ ∀ c ∈ (chunk a n).dropLast, (c.length : ℤ) = n)
    ∧ (n ≤ 0 → chunk a n = []) := by
  constructor
  · intro hn
    have hnn : ¬ n ≤ 0 := by omega
    rw [chunk, if_neg hnn]
    refine ⟨chunkPos_join _ _, ?_⟩
    intro c hc
    rw [chunkPos_sizes (n.toNat - 1) a c hc]
    omega
  · intro hn
    rw [chunk, if_pos hn]

/-- Witness for `chunk_concat_and_sizes` at `a = [1,2,3,4,5]`, `n = 2`
and at `n = -3`. -/
theorem chunk_concat_and_sizes_witness :
    ((chunk [1, 2, 3, 4, 5] (2 : ℤ)).flatten = [1, 2, 3, 4, 5]
      ∧ ∀ c ∈ (chunk [1, 2, 3, 4, 5] (2 : ℤ)).dropLast, (c.length : ℤ) = 2)
    ∧ chunk ([1] : List ℕ) (-3 : ℤ) = [] :=
  ⟨(chunk_concat_and_sizes [1, 2, 3, 4, 5] 2).1 (by norm_num),
   (chunk_concat_and_sizes [1] (-3)).2 (by norm_num)⟩

/-! ## Claim C9: `normalize` maps exactly the semantically-empty values
to `null` -/

/-- Claim C9: `normalize` sends a value to `null` exactly when it is in
the spec's semantically-empty list, and returns every other value
unchanged; in particular `0` and `false` pass through. -/
theorem normalize_eq_specEmpty :
    (∀ v : Value, normalize v = if specEmpty v then Value.null else v)
    ∧ normalize (.num 0) = .num 0 ∧ normalize (.bool false) = .bool false := by
  refine ⟨fun v => ?_, rfl, rfl⟩
  cases v
  case str s => by_cases h : s.isEmpty <;> simp [normalize, specEmpty, h]
  case date valid t => cases valid <;> simp [normalize, specEmpty]
  all_goals simp [normalize, specEmpty]

/-! ## Claim C10: `unescapeHTML ∘ escapeHTML = id` -/

/-- `takeWhile` over an all-satisfying prefix. -/
theorem takeWhile_append_all (p : Char → Bool) (l1 l2 : Str)
    (h : ∀ c ∈ l1, p c = true) :
    (l1 ++ l2).takeWhile p = l1 ++ l2.takeWhile p := by
  induction l1 with
  | nil => simp
  | cons c cs ih =>
    have hc : p c = true := h c (by simp)
    simp only [List.cons_append, List.takeWhile_cons, hc, if_true]
    rw [ih (fun d hd => h d (by simp [hd]))]

/-- `dropWhile` over an all-satisfying prefix. -/
theorem dropWhile_append_all (p : Char → Bool) (l1 l2 : Str)
    (h : ∀ c ∈ l1, p c = true) :
    (l1 ++ l2).dropWhile p = l2.dropWhile p := by
  induction l1 with
  | nil => simp
  | cons c cs ih =>
    have hc : p c = true := h c (by simp)
    simp only [List.cons_append, List.dropWhile_cons, hc, if_true]
    exact ih (fun d hd => h d (by simp [hd]))

/-- The one-step unfolding of `unescapeHTML` on a nonempty string. -/
theorem unescapeHTML_cons (c : Char) (rest : Str) :
    unescapeHTML (c :: rest) =
      if (c = '&' && !(rest.takeWhile isEntityChar).isEmpty
          && ((rest.dropWhile isEntityChar).head? == some ';')) then
        entityValue ('&' :: rest.takeWhile isEntityChar ++ [';'])
          ++ unescapeHTML (rest.dropWhile isEntityChar).tail
      else c :: unescapeHTML rest := by
  rw [unescapeHTML.eq_def]

/-- Unescaping a well-formed entity occurrence consumes exactly the
entity. -/
theorem unescape_entity (name rest : Str) (hne : name ≠ [])
    (hall : ∀ c ∈ name, isEntityChar c = true) :
    unescapeHTML ('&' :: name ++ ';' :: rest)
      = entityValue ('&' :: (name ++ [';'])) ++ unescapeHTML rest := by
  have htw : (name ++ ';' :: rest).takeWhile isEntityChar = name := by
    rw [takeWhile_append_all _ _ _ hall]
    simp [List.takeWhile_cons, isEntityChar]
  have hdw : (name ++ ';' :: rest).dropWhile isEntityChar = ';' :: rest := by
    rw [dropWhile_append_all _ _ _ hall]
    simp [List.dropWhile_cons, isEntityChar]
  have hcons : '&' :: name ++ ';' :: rest = '&' :: (name ++ ';' :: rest) := rfl
  rw [hcons, unescapeHTML_cons, htw, hdw]
  simp [hne]

/-- Claim C10: unescaping an escaped string restores it exactly, for every
string (every ampersand in the escaped output starts one of the five known
entities). -/
theorem unescapeHTML_escapeHTML (s : Str) : unescapeHTML (escapeHTML s) = s := by
  induction s with
  | nil => simp [escapeHTML, unescapeHTML]
  | cons c cs ih =>
    have hstep : escapeHTML (c :: cs) = escChar c ++ escapeHTML cs := by
      simp [escapeHTML]
    rw [hstep]
    by_cases h1 : c = '&'
    · subst h1
      have : escChar '&' ++ escapeHTML cs = '&' :: ['a', 'm', 'p'] ++ ';' :: escapeHTML cs := by
        simp [escChar]
      rw [this, unescape_entity _ _ (by simp) (by decide)]
      rw [ih]
      rfl
    · by_cases h2 : c = '<'
      · subst h2
        have : escChar '<' ++ escapeHTML cs = '&' :: ['l', 't'] ++ ';' :: escapeHTML cs := by
          simp [escChar]
        rw [this, unescape_entity _ _ (by simp) (by decide)]
        rw [ih]
        rfl
      · by_cases h3 : c = '>'
        · subst h3
          have : escChar '>' ++ escapeHTML cs = '&' :: ['g', 't'] ++ ';' :: escapeHTML cs := by
            simp [escChar]
          rw [this, unescape_entity _ _ (by simp) (by decide)]
          rw [ih]
          rfl
        · by_cases h4 : c = '"'
          · subst h4
            have : escChar '"' ++ escapeHTML cs
                = '&' :: ['q', 'u', 'o', 't'] ++ ';' :: escapeHTML cs := by
              simp [escChar]
            rw [this, unescape_entity _ _ (by simp) (by decide)]
            rw [ih]
            rfl
          · by_cases h5 : c = '\''
            · subst h5
              have : escChar '\'' ++ escapeHTML cs
                  = '&' :: ['#', '0', '3', '9'] ++ ';' :: escapeHTML cs := by
                simp [escChar]
              rw [this, unescape_entity _ _ (by simp) (by decide)]
              rw [ih]
              rfl
            · have hesc : escChar c = [c] := by
                simp [escChar, h1, h2, h3, h4, h5]
              rw [hesc]
              have hl : [c] ++ escapeHTML cs = c :: escapeHTML cs := rfl
              rw [hl, unescapeHTML]
              simp [h1, ih]

/-! ## Claim C7: `flattenObject` / `unflattenObject` round-trip -/

theorem splitDot_ne_nil (s : Str) : splitDot s ≠ [] := by
  induction s with
  | nil => simp [splitDot]
  | cons c rest ih =>
    rw [splitDot]
    by_cases hc : c = '.'
    · simp [hc]
    · simp only [hc, if_false]
      cases h : splitDot rest with
      | nil => simp
      | cons p ps => simp

theorem splitDot_nodot (s : Str) (h : ('.' : Char) ∉ s) : splitDot s = [s] := by
  induction s with
  | nil => rfl
  | cons c rest ih =>
    simp only [List.mem_cons, not_or] at h
    rw [splitDot, if_neg (fun hc => h.1 hc.symm), ih h.2]

theorem splitDot_append (p s : Str) (h : ('.' : Char) ∉ p) :
    splitDot (p ++ '.' :: s) = p :: splitDot s := by
  induction p with
  | nil => simp [splitDot]
  | cons c rest ih =>
    simp only [List.mem_cons, not_or] at h
    rw [List.cons_append, splitDot, if_neg (fun hc => h.1 hc.symm), ih h.2]

theorem splitDot_joinDot (ps : List Str) (hne : ps ≠ [])
    (hgood : ∀ p ∈ ps, ('.' : Char) ∉ p) : splitDot (joinDot ps) = ps := by
  induction ps with
  | nil => exact absurd rfl hne
  | cons p rest ih =>
    cases rest with
    | nil => exact splitDot_nodot p (hgood p (by simp))
    | cons q t =>
      rw [show joinDot (p :: q :: t) = p ++ '.' :: joinDot (q :: t) from rfl]
      rw [splitDot_append p _ (hgood p (by simp))]
      rw [ih (List.cons_ne_nil _ _) (fun r hr => hgood r (by simp [hr]))]

theorem joinDot_ne_nil (ps : List Str) (hne : ps ≠ []) (h0 : ∀ p ∈ ps, p ≠ []) :
    joinDot ps ≠ [] := by
  cases ps with
  | nil => exact absurd rfl hne
  | cons p rest =>
    cases rest with
    | nil => exact h0 p (by simp)
    | cons q t =>
      rw [show joinDot (p :: q :: t) = p ++ '.' :: joinDot (q :: t) from rfl]
      intro hcontr
      exact h0 p (by simp) (List.append_eq_nil.mp hcontr).1

theorem joinDot_snoc (path : List Str) (k : Str) (h0 : ∀ p ∈ path, p ≠ []) :
    joinDot (path ++ [k])
      = if (joinDot path).isEmpty then k else joinDot path ++ '.' :: k := by
  induction path with
  | nil => simp [joinDot]
  | cons p rest ih =>
    cases rest with
    | nil =>
      have hp : p ≠ [] := h0 p (by simp)
      rw [show joinDot [p] = p from rfl]
      rw [if_neg (by simp [List.isEmpty_eq_true, hp])]
      rfl
    | cons q t =>
      have hne : joinDot (q :: t) ≠ [] :=
        joinDot_ne_nil (q :: t) (List.cons_ne_nil _ _) (fun r hr => h0 r (by simp [hr]))
      have hne2 : joinDot (p :: q :: t) ≠ [] :=
        joinDot_ne_nil _ (List.cons_ne_nil _ _) h0
      show p ++ '.' :: joinDot ((q :: t) ++ [k])
          = if (joinDot (p :: q :: t)).isEmpty then k else joinDot (p :: q :: t) ++ '.' :: k
      rw [ih (fun r hr => h0 r (by simp [hr]))]
      rw [if_neg (by simp [List.isEmpty_eq_true, hne])]
      rw [show joinDot (p :: q :: t) = p ++ '.' :: joinDot (q :: t) from rfl]
      rw [if_neg (by simp [List.isEmpty_eq_true, hne2])]
      simp

/-- Unfoldings of `goodTree` / `goodV` as propositions. -/
theorem goodTree_cons_iff (k : Str) (v : Value) (rest : Entries) :
    goodTree ((k, v) :: rest) = true
      ↔ k ≠ [] ∧ ('.' : Char) ∉ k ∧ k ∉ keysOf rest ∧ goodV v = true
        ∧ goodTree rest = true := by
  rw [goodTree]
  simp [containsKey, List.isEmpty_eq_true, and_assoc]

theorem goodV_obj_iff (es : Entries) :
    goodV (.obj es) = true ↔ es ≠ [] ∧ goodTree es = true := by
  rw [goodV]
  simp [List.isEmpty_eq_true]

/-- Unfoldings of `leafPaths` on a cons cell. -/
theorem leafPaths_cons_obj (k : Str) (sub : Entries) (rest : Entries) :
    leafPaths ((k, .obj sub) :: rest)
      = (leafPaths sub).map (fun pw => (k :: pw.1, pw.2)) ++ leafPaths rest := by
  rw [leafPaths.eq_def]

theorem leafPaths_cons_leaf (k : Str) (v : Value) (rest : Entries)
    (h : isPlainObj v = false) :
    leafPaths ((k, v) :: rest) = ([k], v) :: leafPaths rest := by
  cases v <;> first
    | (rw [leafPaths.eq_def]; rfl)
    | exact absurd h (by simp [isPlainObj])

/-- Unfoldings of `flatCat` on a cons cell. -/
theorem flatCat_cons_obj (pre : Str) (k : Str) (sub : Entries) (rest : Entries) :
    flatCat pre ((k, .obj sub) :: rest)
      = flatCat (if pre.isEmpty then k else pre ++ '.' :: k) sub ++ flatCat pre rest := by
  rw [flatCat.eq_def]

theorem flatCat_cons_leaf (pre : Str) (k : Str) (v : Value) (rest : Entries)
    (h : isPlainObj v = false) :
    flatCat pre ((k, v) :: rest)
      = ((if pre.isEmpty then k else pre ++ '.' :: k), v) :: flatCat pre rest := by
  cases v <;> first
    | (rw [flatCat.eq_def]; rfl)
    | exact absurd h (by simp [isPlainObj])

/-- Unfoldings of `flattenGo` on a cons cell. -/
theorem flattenGo_cons_obj (pre : Str) (acc : Entries) (k : Str) (sub : Entries)
    (rest : Entries) :
    flattenGo pre acc ((k, .obj sub) :: rest)
      = flattenGo pre
          (assignEnt acc
            (flattenGo (if pre.isEmpty then k else pre ++ '.' :: k) [] sub)) rest := by
  rw [flattenGo.eq_def]
  rfl

theorem flattenGo_cons_leaf (pre : Str) (acc : Entries) (k : Str) (v : Value)
    (rest : Entries) (h : isPlainObj v = false) :
    flattenGo pre acc ((k, v) :: rest)
      = flattenGo pre (setKey acc (if pre.isEmpty then k else pre ++ '.' :: k) v) rest := by
  cases v <;> first
    | (rw [flattenGo.eq_def]; rfl)
    | exact absurd h (by simp [isPlainObj])

/-- Unfolding of `insertPath` on a path of length at least two. -/
theorem insertPath_cons₂ (t : Entries) (k p0 : Str) (p : List Str) (v : Value) :
    insertPath t (k :: p0 :: p) v
      = match lookupEnt t k with
        | none => (insertPath [] (p0 :: p) v).map (fun s => setKey t k (.obj s))
        | some (.obj u) => (insertPath u (p0 :: p) v).map (fun s => setKey t k (.obj s))
        | some _ => none := by
  rw [insertPath.eq_def]

theorem insertPath_single (t : Entries) (k : Str) (v : Value) :
    insertPath t [k] v = some (setKey t k v) := by
  rw [insertPath.eq_def]

theorem leafPaths_nil : leafPaths [] = [] := by rw [leafPaths.eq_def]

theorem flatCat_nil (pre : Str) : flatCat pre [] = [] := by rw [flatCat.eq_def]

theorem flattenGo_nil (pre : Str) (acc : Entries) : flattenGo pre acc [] = acc := by
  rw [flattenGo.eq_def]

theorem sizeOf_value_pos (v : Value) : 0 < sizeOf v := by
  cases v <;> simp

theorem sizeOf_sub_lt (k : Str) (sub : Entries) (rest : Entries) :
    sizeOf sub < sizeOf ((k, Value.obj sub) :: rest) := by
  simp
  omega

theorem sizeOf_rest_lt (k : Str) (v : Value) (rest : Entries) :
    sizeOf rest < sizeOf ((k, v) :: rest) := by
  simp

/-- Every leaf path of a good tree starts with a top-level key and has
nonempty, dot-free segments. -/
theorem leafPaths_good : ∀ (es : Entries), goodTree es = true →
    ∀ pw ∈ leafPaths es,
      (∃ k p2, pw.1 = k :: p2 ∧ k ∈ keysOf es)
      ∧ ∀ s ∈ pw.1, s ≠ [] ∧ ('.' : Char) ∉ s := by
  intro es
  generalize hn : sizeOf es = n
  induction n using Nat.strong_induction_on generalizing es with
  | _ n ih =>
    match es with
    | [] =>
      intro _ pw hpw
      rw [leafPaths_nil] at hpw
      exact absurd hpw (by simp)
    | (k, v) :: rest =>
      intro hg pw hpw
      obtain ⟨hk1, hk2, hk3, hgv, hgrest⟩ := (goodTree_cons_iff k v rest).mp hg
      match hv : v with
      | .obj sub =>
        obtain ⟨hsne, hgsub⟩ := (goodV_obj_iff sub).mp hgv
        rw [leafPaths_cons_obj, List.mem_append] at hpw
        rcases hpw with hpw | hpw
        · obtain ⟨qw, hqw, hmap⟩ := List.mem_map.mp hpw
          obtain ⟨_, hseg⟩ := ih (sizeOf sub)
            (hn ▸ sizeOf_sub_lt k sub rest) sub rfl hgsub qw hqw
          subst hmap
          refine ⟨⟨k, qw.1, rfl, by simp⟩, ?_⟩
          intro s hs
          rcases List.mem_cons.mp hs with hs | hs
          · subst hs
            exact ⟨hk1, hk2⟩
          · exact hseg s hs
        · obtain ⟨⟨k2, p2, hshape, hmem⟩, hseg⟩ := ih (sizeOf rest)
            (hn ▸ sizeOf_rest_lt k (Value.obj sub) rest) rest rfl hgrest pw hpw
          exact ⟨⟨k2, p2, hshape, by simp [hmem]⟩, hseg⟩
      | .undef | .null | .bool _ | .num _ | .nan | .str _ | .arr _ | .set _
      | .map _ | .date _ _ | .func =>
        rw [leafPaths_cons_leaf _ _ _ (by simp [isPlainObj])] at hpw
        rcases List.mem_cons.mp hpw with hpw | hpw
        · subst hpw
          refine ⟨⟨k, [], rfl, by simp⟩, ?_⟩
          intro s hs
          rcases List.mem_cons.mp hs with hs | hs
          · subst hs
            exact ⟨hk1, hk2⟩
          · exact absurd hs (by simp)
        · obtain ⟨⟨k2, p2, hshape, hmem⟩, hseg⟩ := ih (sizeOf rest)
            (hn ▸ sizeOf_rest_lt k _ rest) rest rfl hgrest pw hpw
          exact ⟨⟨k2, p2, hshape, by simp [hmem]⟩, hseg⟩

/-- A nonempty good tree has at least one leaf path. -/
theorem leafPaths_ne_nil : ∀ (es : Entries), goodTree es = true → es ≠ [] →
    leafPaths es ≠ [] := by
  intro es
  generalize hn : sizeOf es = n
  induction n using Nat.strong_induction_on generalizing es with
  | _ n ih =>
    match es with
    | [] => exact fun _ h => absurd rfl h
    | (k, v) :: rest =>
      intro hg _
      obtain ⟨_, _, _, hgv, _⟩ := (goodTree_cons_iff k v rest).mp hg
      match hv : v with
      | .obj sub =>
        obtain ⟨hsne, hgsub⟩ := (goodV_obj_iff sub).mp hgv
        rw [leafPaths_cons_obj]
        have hrec := ih (sizeOf sub) (hn ▸ sizeOf_sub_lt k sub rest) sub rfl hgsub hsne
        intro hcontr
        rcases List.append_eq_nil.mp hcontr with ⟨hmap, _⟩
        exact hrec (List.map_eq_nil_iff.mp hmap)
      | .undef | .null | .bool _ | .num _ | .nan | .str _ | .arr _ | .set _
      | .map _ | .date _ _ | .func =>
        rw [leafPaths_cons_leaf _ _ _ (by simp [isPlainObj])]
        simp

/-- The leaf paths of a good tree are pairwise distinct. -/
theorem leafPaths_nodup : ∀ (es : Entries), goodTree es = true →
    ((leafPaths es).map Prod.fst).Nodup := by
  intro es
  generalize hn : sizeOf es = n
  induction n using Nat.strong_induction_on generalizing es with
  | _ n ih =>
    match es with
    | [] => rw [leafPaths_nil]; simp
    | (k, v) :: rest =>
      intro hg
      obtain ⟨hk1, hk2, hk3, hgv, hgrest⟩ := (goodTree_cons_iff k v rest).mp hg
      have hrest := ih (sizeOf rest) (hn ▸ sizeOf_rest_lt k v rest) rest rfl hgrest
      have hdisj : ∀ (p : List Str), (∃ p2, p = k :: p2) →
          p ∉ (leafPaths rest).map Prod.fst := by
        rintro p ⟨p2, rfl⟩ hmm
        obtain ⟨qw, hqw, hfst⟩ := List.mem_map.mp hmm
        obtain ⟨⟨k2, q2, hshape, hmem⟩, _⟩ := leafPaths_good rest hgrest qw hqw
        rw [hshape] at hfst
        have : k2 = k := by
          have := congrArg (fun l => l.head?) hfst
          simpa using this
        subst this
        exact hk3 hmem
      match hv : v with
      | .obj sub =>
        obtain ⟨hsne, hgsub⟩ := (goodV_obj_iff sub).mp hgv
        rw [leafPaths_cons_obj, List.map_append, List.nodup_append]
        refine ⟨?_, hrest, ?_⟩
        · rw [List.map_map]
          have hsub := ih (sizeOf sub) (hn ▸ sizeOf_sub_lt k sub rest) sub rfl hgsub
          have : (Prod.fst ∘ fun pw : List Str × Value => (k :: pw.1, pw.2))
              = (fun p => k :: p) ∘ Prod.fst := rfl
          rw [this, ← List.map_map]
          exact hsub.map (fun a b hab => by injection hab)
        · intro p hp
          rw [List.map_map] at hp
          obtain ⟨qw, _, hfst⟩ := List.mem_map.mp hp
          exact hdisj p ⟨qw.1, hfst.symm⟩
      | .undef | .null | .bool _ | .num _ | .nan | .str _ | .arr _ | .set _
      | .map _ | .date _ _ | .func =>
        rw [leafPaths_cons_leaf _ _ _ (by simp [isPlainObj])]
        rw [List.map_cons, List.nodup_cons]
        exact ⟨hdisj [k] ⟨[], rfl⟩, hrest⟩

/-- `flatCat` computes exactly the dot-joined leaf paths. -/
theorem flatCat_eq_leafPaths : ∀ (es : Entries), goodTree es = true →
    ∀ (path : List Str), (∀ s ∈ path, s ≠ [] ∧ ('.' : Char) ∉ s) →
    flatCat (joinDot path) es
      = (leafPaths es).map (fun pw => (joinDot (path ++ pw.1), pw.2)) := by
  intro es
  generalize hn : sizeOf es = n
  induction n using Nat.strong_induction_on generalizing es with
  | _ n ih =>
    match es with
    | [] =>
      intro _ path _
      rw [leafPaths_nil, flatCat_nil]
      rfl
    | (k, v) :: rest =>
      intro hg path hpath
      obtain ⟨hk1, hk2, hk3, hgv, hgrest⟩ := (goodTree_cons_iff k v rest).mp hg
      have hfull : (if (joinDot path).isEmpty then k else joinDot path ++ '.' :: k)
          = joinDot (path ++ [k]) :=
        (joinDot_snoc path k (fun p hp => (hpath p hp).1)).symm
      have hpathk : ∀ s ∈ path ++ [k], s ≠ [] ∧ ('.' : Char) ∉ s := by
        intro s hs
        rcases List.mem_append.mp hs with hs | hs
        · exact hpath s hs
        · simp only [List.mem_singleton] at hs
          subst hs
          exact ⟨hk1, hk2⟩
      match hv : v with
      | .obj sub =>
        obtain ⟨hsne, hgsub⟩ := (goodV_obj_iff sub).mp hgv
        rw [flatCat_cons_obj, leafPaths_cons_obj, List.map_append, hfull]
        congr 1
        · rw [ih (sizeOf sub) (hn ▸ sizeOf_sub_lt k sub rest) sub rfl hgsub
            (path ++ [k]) hpathk, List.map_map]
          refine List.map_congr_left ?_
          intro pw _
          simp [List.append_assoc]
        · exact ih (sizeOf rest) (hn ▸ sizeOf_rest_lt k (Value.obj sub) rest) rest rfl
            hgrest path hpath
      | .undef | .null | .bool _ | .num _ | .nan | .str _ | .arr _ | .set _
      | .map _ | .date _ _ | .func =>
        rw [flatCat_cons_leaf _ _ _ _ (by simp [isPlainObj]),
          leafPaths_cons_leaf _ _ _ (by simp [isPlainObj]), List.map_cons, hfull,
          ih (sizeOf rest) (hn ▸ sizeOf_rest_lt k _ rest) rest rfl hgrest path hpath]

/-- The flat keys produced from a good tree are pairwise distinct. -/
theorem flatCat_keys_nodup (es : Entries) (path : List Str) (hg : goodTree es = true)
    (hpath : ∀ s ∈ path, s ≠ [] ∧ ('.' : Char) ∉ s) :
    (keysOf (flatCat (joinDot path) es)).Nodup := by
  rw [flatCat_eq_leafPaths es hg path hpath]
  have hkeys : keysOf ((leafPaths es).map (fun pw => (joinDot (path ++ pw.1), pw.2)))
      = ((leafPaths es).map Prod.fst).map (fun p => joinDot (path ++ p)) := by
    simp only [keysOf, List.map_map]
    rfl
  rw [hkeys]
  refine List.Nodup.map_on ?_ (leafPaths_nodup es hg)
  intro p hp q hq heq
  obtain ⟨pw, hpw, hp1⟩ := List.mem_map.mp hp
  obtain ⟨qw, hqw, hq1⟩ := List.mem_map.mp hq
  obtain ⟨⟨kp, p2, hpshape, _⟩, hpseg⟩ := leafPaths_good es hg pw hpw
  obtain ⟨⟨kq, q2, hqshape, _⟩, hqseg⟩ := leafPaths_good es hg qw hqw
  subst hp1
  subst hq1
  have hgoodp : ∀ s ∈ path ++ pw.1, ('.' : Char) ∉ s := by
    intro s hs
    rcases List.mem_append.mp hs with hs | hs
    exacts [(hpath s hs).2, (hpseg s hs).2]
  have hgoodq : ∀ s ∈ path ++ qw.1, ('.' : Char) ∉ s := by
    intro s hs
    rcases List.mem_append.mp hs with hs | hs
    exacts [(hpath s hs).2, (hqseg s hs).2]
  have hne_p : path ++ pw.1 ≠ [] := by
    intro h
    have := (List.append_eq_nil.mp h).2
    rw [hpshape] at this
    exact List.cons_ne_nil _ _ this
  have hne_q : path ++ qw.1 ≠ [] := by
    intro h
    have := (List.append_eq_nil.mp h).2
    rw [hqshape] at this
    exact List.cons_ne_nil _ _ this
  have hcat : path ++ pw.1 = path ++ qw.1 := by
    rw [← splitDot_joinDot (path ++ pw.1) hne_p hgoodp,
      ← splitDot_joinDot (path ++ qw.1) hne_q hgoodq, heq]
  exact List.append_cancel_left hcat

theorem insertAll_nil (t : Entries) : insertAll t [] = some t := rfl

theorem insertAll_cons (t : Entries) (p : List Str) (v : Value)
    (rest : List (List Str × Value)) :
    insertAll t ((p, v) :: rest)
      = match insertPath t p v with
        | none => none
        | some t1 => insertAll t1 rest := rfl

/-- `Object.assign` with fresh, pairwise-distinct keys is concatenation. -/
theorem assignEnt_append_fresh : ∀ (ext acc : Entries),
    (∀ k ∈ keysOf ext, k ∉ keysOf acc) → (keysOf ext).Nodup →
    assignEnt acc ext = acc ++ ext := by
  intro ext
  induction ext with
  | nil =>
    intro acc _ _
    simp [assignEnt]
  | cons kv ext ih =>
    obtain ⟨k, v⟩ := kv
    intro acc hfresh hnd
    rw [keysOf_cons, List.nodup_cons] at hnd
    have hkacc : k ∉ keysOf acc := hfresh k (by simp)
    have hstep : assignEnt acc ((k, v) :: ext) = assignEnt (setKey acc k v) ext := rfl
    have hfresh2 : ∀ k2 ∈ keysOf ext, k2 ∉ keysOf (acc ++ [(k, v)]) := by
      intro k2 hk2
      rw [keysOf_append]
      simp only [List.mem_append]
      rintro (h | h)
      · exact hfresh k2 (by simp [hk2]) h
      · have hkk : k2 = k := by simpa [keysOf] using h
        exact hnd.1 (hkk ▸ hk2)
    rw [hstep, setKey_append_fresh acc k v hkacc, ih (acc ++ [(k, v)]) hfresh2 hnd.2,
      List.append_assoc]
    rfl

/-- `flattenGo` appends the `flatCat` entries to its accumulator whenever
the new keys are fresh (which holds on good trees). -/
theorem flattenGo_eq_append : ∀ (es : Entries), goodTree es = true →
    ∀ (path : List Str), (∀ s ∈ path, s ≠ [] ∧ ('.' : Char) ∉ s) →
    ∀ (acc : Entries), (∀ k2 ∈ keysOf (flatCat (joinDot path) es), k2 ∉ keysOf acc) →
    flattenGo (joinDot path) acc es = acc ++ flatCat (joinDot path) es := by
  intro es
  generalize hn : sizeOf es = n
  induction n using Nat.strong_induction_on generalizing es with
  | _ n ih =>
    match es with
    | [] =>
      intro _ path _ acc _
      rw [flattenGo_nil, flatCat_nil, List.append_nil]
    | (k, v) :: rest =>
      intro hg path hpath acc hacc
      obtain ⟨hk1, hk2, hk3, hgv, hgrest⟩ := (goodTree_cons_iff k v rest).mp hg
      have hfull : (if (joinDot path).isEmpty then k else joinDot path ++ '.' :: k)
          = joinDot (path ++ [k]) :=
        (joinDot_snoc path k (fun p hp => (hpath p hp).1)).symm
      have hpathk : ∀ s ∈ path ++ [k], s ≠ [] ∧ ('.' : Char) ∉ s := by
        intro s hs
        rcases List.mem_append.mp hs with hs | hs
        · exact hpath s hs
        · simp only [List.mem_singleton] at hs
          subst hs
          exact ⟨hk1, hk2⟩
      have hwhole := flatCat_keys_nodup ((k, v) :: rest) path hg hpath
      cases hpo : isPlainObj v with
      | true =>
        obtain ⟨sub, rfl⟩ : ∃ sub, v = Value.obj sub := by
          cases v <;> first
            | exact ⟨_, rfl⟩
            | simp [isPlainObj] at hpo
        obtain ⟨hsne, hgsub⟩ := (goodV_obj_iff sub).mp hgv
        rw [flatCat_cons_obj, hfull] at hwhole hacc ⊢
        rw [keysOf_append, List.nodup_append] at hwhole
        rw [flattenGo_cons_obj, hfull]
        have hinner : flattenGo (joinDot (path ++ [k])) [] sub
            = flatCat (joinDot (path ++ [k])) sub := by
          have := ih (sizeOf sub) (hn ▸ sizeOf_sub_lt k sub rest) sub rfl hgsub
            (path ++ [k]) hpathk [] (by simp)
          rw [this, List.nil_append]
        have hassign : assignEnt acc (flatCat (joinDot (path ++ [k])) sub)
            = acc ++ flatCat (joinDot (path ++ [k])) sub := by
          refine assignEnt_append_fresh _ acc ?_ hwhole.1
          intro k2 hk2
          exact hacc k2 (by rw [keysOf_append]; exact List.mem_append_left _ hk2)
        have hrest := ih (sizeOf rest) (hn ▸ sizeOf_rest_lt k (Value.obj sub) rest)
          rest rfl hgrest path hpath
          (acc ++ flatCat (joinDot (path ++ [k])) sub) ?_
        · rw [hinner, hassign, hrest, List.append_assoc]
        · intro k2 hk2
          rw [keysOf_append]
          simp only [List.mem_append]
          rintro (h | h)
          · exact hacc k2 (by rw [keysOf_append]; exact List.mem_append_right _ hk2) h
          · exact hwhole.2.2 h hk2
      | false =>
        rw [flatCat_cons_leaf _ _ _ _ hpo, hfull] at hwhole hacc ⊢
        rw [keysOf_cons, List.nodup_cons] at hwhole
        rw [flattenGo_cons_leaf _ _ _ _ _ hpo, hfull]
        have hset : setKey acc (joinDot (path ++ [k])) v
            = acc ++ [(joinDot (path ++ [k]), v)] :=
          setKey_append_fresh acc _ v (hacc _ (by simp))
        have hrest := ih (sizeOf rest) (hn ▸ sizeOf_rest_lt k v rest)
          rest rfl hgrest path hpath (acc ++ [(joinDot (path ++ [k]), v)]) ?_
        · rw [hset, hrest, List.append_assoc]
          rfl
        · intro k2 hk2
          rw [keysOf_append]
          simp only [List.mem_append]
          rintro (h | h)
          · exact hacc k2 (by simp [hk2]) h
          · have hkk : k2 = joinDot (path ++ [k]) := by simpa [keysOf] using h
            exact hwhole.1 (hkk ▸ hk2)

theorem setKey_append_last (t : Entries) (k : Str) (x y : Value) (h : k ∉ keysOf t) :
    setKey (t ++ [(k, x)]) k y = t ++ [(k, y)] := by
  induction t with
  | nil => simp [setKey]
  | cons kv t ih =>
    obtain ⟨k1, v1⟩ := kv
    simp only [keysOf_cons, List.mem_cons] at h
    push_neg at h
    rw [List.cons_append, setKey_cons, if_neg (fun hh => h.1 hh.symm), ih h.2,
      List.cons_append]

/-- Inserting paths all under an existing mapping key edits that submapping. -/
theorem insertAll_under : ∀ (pl : List (List Str × Value)) (t u : Entries) (k : Str),
    lookupEnt t k = some (.obj u) → (∀ pw ∈ pl, pw.1 ≠ []) →
    insertAll t (pl.map (fun pw => (k :: pw.1, pw.2)))
      = (insertAll u pl).map (fun u1 => setKey t k (.obj u1)) := by
  intro pl
  induction pl with
  | nil =>
    intro t u k hlook _
    rw [List.map_nil, insertAll_nil, insertAll_nil, Option.map_some',
      setKey_self_eq t k (Value.obj u) hlook]
  | cons pv pl ih =>
    intro t u k hlook hne
    obtain ⟨p, v⟩ := pv
    have hp : p ≠ [] := hne (p, v) (by simp)
    match p, hp with
    | p0 :: p', _ =>
      rw [List.map_cons, insertAll_cons, insertAll_cons, insertPath_cons₂, hlook]
      dsimp only
      cases hins : insertPath u (p0 :: p') v with
      | none => rfl
      | some u1 =>
        rw [Option.map_some']
        dsimp only
        rw [ih (setKey t k (.obj u1)) u1 k (lookupEnt_setKey_self t k (Value.obj u1))
          (fun pw hpw => hne pw (List.mem_cons_of_mem _ hpw))]
        exact Option.map_congr (fun u2 _ => setKey_setKey t k (Value.obj u1) (Value.obj u2))

theorem insertAll_append : ∀ (pl1 pl2 : List (List Str × Value)) (t : Entries),
    insertAll t (pl1 ++ pl2)
      = match insertAll t pl1 with
        | none => none
        | some t1 => insertAll t1 pl2 := by
  intro pl1
  induction pl1 with
  | nil =>
    intro pl2 t
    rfl
  | cons pv pl ih =>
    intro pl2 t
    obtain ⟨p, v⟩ := pv
    rw [List.cons_append, insertAll_cons, insertAll_cons]
    cases insertPath t p v with
    | none => rfl
    | some t1 => exact ih pl2 t1

/-- Inserting the leaf paths of a good tree into a context with fresh keys
appends the tree itself. -/
theorem insertAll_leafPaths : ∀ (es : Entries), goodTree es = true →
    ∀ (t : Entries), (∀ k2 ∈ keysOf es, k2 ∉ keysOf t) →
    insertAll t (leafPaths es) = some (t ++ es) := by
  intro es
  generalize hn : sizeOf es = n
  induction n using Nat.strong_induction_on generalizing es with
  | _ n ih =>
    match es with
    | [] =>
      intro _ t _
      rw [leafPaths_nil, insertAll_nil, List.append_nil]
    | (k, v) :: rest =>
      intro hg t hfresh
      obtain ⟨hk1, hk2, hk3, hgv, hgrest⟩ := (goodTree_cons_iff k v rest).mp hg
      have hkt : k ∉ keysOf t := hfresh k (by simp)
      have hfresh2 : ∀ (w : Value), ∀ k2 ∈ keysOf rest, k2 ∉ keysOf (t ++ [(k, w)]) := by
        intro w k2 hk2
        rw [keysOf_append]
        simp only [List.mem_append]
        rintro (h | h)
        · exact hfresh k2 (by simp [hk2]) h
        · have hkk : k2 = k := by simpa [keysOf] using h
          exact hk3 (hkk ▸ hk2)
      cases hpo : isPlainObj v with
      | true =>
        obtain ⟨sub, rfl⟩ : ∃ sub, v = Value.obj sub := by
          cases v <;> first
            | exact ⟨_, rfl⟩
            | simp [isPlainObj] at hpo
        obtain ⟨hsne, hgsub⟩ := (goodV_obj_iff sub).mp hgv
        have hsub := ih (sizeOf sub) (hn ▸ sizeOf_sub_lt k sub rest) sub rfl hgsub
          [] (by simp)
        have hlpne : leafPaths sub ≠ [] := leafPaths_ne_nil sub hgsub hsne
        match hlp : leafPaths sub with
        | [] => exact absurd hlp hlpne
        | (p0, w0) :: pl' =>
          obtain ⟨⟨kp, p2, hp0shape, _⟩, _⟩ :=
            leafPaths_good sub hgsub (p0, w0) (by rw [hlp]; simp)
          have hp0 : p0 = kp :: p2 := hp0shape
          rw [hlp, insertAll_cons] at hsub
          cases hc0 : insertPath [] p0 w0 with
          | none =>
            rw [hc0] at hsub
            simp at hsub
          | some c0 =>
            rw [hc0] at hsub
            have hsub2 : insertAll c0 pl' = some sub := hsub
            have hfirst : insertPath t (k :: p0) w0 = some (t ++ [(k, Value.obj c0)]) := by
              rw [hp0, insertPath_cons₂, lookupEnt_eq_none_of_not_mem t k hkt]
              dsimp only
              rw [← hp0, hc0, Option.map_some',
                setKey_append_fresh t k (Value.obj c0) hkt]
            have hlook2 : lookupEnt (t ++ [(k, Value.obj c0)]) k = some (Value.obj c0) := by
              rw [lookupEnt_append_right t _ k hkt, lookupEnt_cons, if_pos rfl]
            have hnonempty : ∀ pw ∈ pl', pw.1 ≠ [] := by
              intro pw hpw
              obtain ⟨⟨kq, q2, hq, _⟩, _⟩ := leafPaths_good sub hgsub pw
                (by rw [hlp]; exact List.mem_cons_of_mem _ hpw)
              rw [hq]
              exact List.cons_ne_nil _ _
            have hgroup : insertAll t (((p0, w0) :: pl').map (fun pw => (k :: pw.1, pw.2)))
                = some (t ++ [(k, Value.obj sub)]) := by
              rw [List.map_cons, insertAll_cons]
              dsimp only
              rw [hfirst]
              dsimp only
              rw [insertAll_under pl' (t ++ [(k, Value.obj c0)]) c0 k hlook2 hnonempty,
                hsub2, Option.map_some',
                setKey_append_last t k (Value.obj c0) (Value.obj sub) hkt]
            rw [leafPaths_cons_obj, hlp, insertAll_append, hgroup]
            dsimp only
            rw [ih (sizeOf rest) (hn ▸ sizeOf_rest_lt k (Value.obj sub) rest) rest rfl
              hgrest (t ++ [(k, Value.obj sub)]) (hfresh2 (Value.obj sub)),
              List.append_assoc]
            rfl
      | false =>
        rw [leafPaths_cons_leaf _ _ _ hpo, insertAll_cons, insertPath_single,
          setKey_append_fresh t k v hkt]
        dsimp only
        rw [ih (sizeOf rest) (hn ▸ sizeOf_rest_lt k v rest) rest rfl hgrest
          (t ++ [(k, v)]) (hfresh2 v), List.append_assoc]
        rfl

theorem unflatGo_cons (t : Entries) (k : Str) (v : Value) (f : Entries) :
    unflatGo t ((k, v) :: f)
      = match insertPath t (splitDot k) v with
        | none => none
        | some t1 => unflatGo t1 f := rfl

/-- `unflattenObject`'s fold is `insertAll` over the split keys. -/
theorem unflatGo_eq_insertAll : ∀ (f : Entries) (t : Entries),
    unflatGo t f = insertAll t (f.map (fun kv => (splitDot kv.1, kv.2))) := by
  intro f
  induction f with
  | nil =>
    intro t
    rfl
  | cons kv f ih =>
    intro t
    obtain ⟨k, v⟩ := kv
    rw [List.map_cons, unflatGo_cons, insertAll_cons]
    cases insertPath t (splitDot k) v with
    | none => rfl
    | some t1 => exact ih t1

theorem goodFlat_cons_iff (k : Str) (v : Value) (rest : Entries) :
    goodFlat ((k, v) :: rest) = true
      ↔ ('.' : Char) ∉ k ∧ k ∉ keysOf rest ∧ isPlainObj v = false
        ∧ goodFlat rest = true := by
  rw [goodFlat]
  simp [containsKey, and_assoc]

theorem goodFlat_nodup : ∀ (f : Entries), goodFlat f = true → (keysOf f).Nodup := by
  intro f
  induction f with
  | nil =>
    intro _
    simp
  | cons kv f ih =>
    obtain ⟨k, v⟩ := kv
    intro hg
    obtain ⟨_, hmem, _, hrest⟩ := (goodFlat_cons_iff k v f).mp hg
    rw [keysOf_cons, List.nodup_cons]
    exact ⟨hmem, ih hrest⟩

theorem goodFlat_leaves : ∀ (f : Entries), goodFlat f = true →
    ∀ kv ∈ f, isPlainObj kv.2 = false := by
  intro f
  induction f with
  | nil =>
    intro _ kv hkv
    exact absurd hkv (by simp)
  | cons kv0 f ih =>
    obtain ⟨k, v⟩ := kv0
    intro hg kv hkv
    obtain ⟨_, _, hnp, hrest⟩ := (goodFlat_cons_iff k v f).mp hg
    rcases List.mem_cons.mp hkv with h | h
    · rw [h]
      exact hnp
    · exact ih hrest kv h

/-- Unflattening a flat map with dot-free, distinct keys re-creates it. -/
theorem unflatGo_goodFlat : ∀ (f : Entries) (t : Entries), goodFlat f = true →
    (∀ k2 ∈ keysOf f, k2 ∉ keysOf t) →
    unflatGo t f = some (t ++ f) := by
  intro f
  induction f with
  | nil =>
    intro t _ _
    rw [List.append_nil]
    rfl
  | cons kv f ih =>
    obtain ⟨k, v⟩ := kv
    intro t hg hfresh
    obtain ⟨hdot, hmem, hnp, hrest⟩ := (goodFlat_cons_iff k v f).mp hg
    have hkt : k ∉ keysOf t := hfresh k (by simp)
    rw [unflatGo_cons, splitDot_nodot k hdot, insertPath_single,
      setKey_append_fresh t k v hkt]
    dsimp only
    have hfresh2 : ∀ k2 ∈ keysOf f, k2 ∉ keysOf (t ++ [(k, v)]) := by
      intro k2 hk2
      rw [keysOf_append]
      simp only [List.mem_append]
      rintro (h | h)
      · exact hfresh k2 (by simp [hk2]) h
      · have hkk : k2 = k := by simpa [keysOf] using h
        exact hmem (hkk ▸ hk2)
    rw [ih (t ++ [(k, v)]) hrest hfresh2, List.append_assoc]
    rfl

/-- With the empty prefix, flattening a map of leaves is `Object.assign`. -/
theorem flattenGo_leaf_assign : ∀ (f acc : Entries),
    (∀ kv ∈ f, isPlainObj kv.2 = false) →
    flattenGo [] acc f = assignEnt acc f := by
  intro f
  induction f with
  | nil =>
    intro acc _
    rw [flattenGo_nil]
    rfl
  | cons kv f ih =>
    obtain ⟨k, v⟩ := kv
    intro acc hleaf
    rw [flattenGo_cons_leaf [] acc k v f (hleaf (k, v) (by simp))]
    have hif : (if ([] : Str).isEmpty then k else [] ++ '.' :: k) = k := rfl
    rw [hif, ih (setKey acc k v) (fun kv hkv => hleaf kv (by simp [hkv]))]
    rfl

theorem flattenObject_goodFlat (f : Entries) (hg : goodFlat f = true) :
    flattenObject f [] = f := by
  show flattenGo [] [] f = f
  rw [flattenGo_leaf_assign f [] (goodFlat_leaves f hg),
    assignEnt_append_fresh f [] (by simp) (goodFlat_nodup f hg), List.nil_append]

/-- Direction 1 of the round-trip: trees in the amended domain survive
flatten-then-unflatten. -/
theorem unflatten_flatten (m : Entries) (hg : goodTree m = true) :
    unflattenObject (flattenObject m []) = some m := by
  have hflat : flattenObject m [] = (leafPaths m).map (fun pw => (joinDot pw.1, pw.2)) := by
    show flattenGo (joinDot []) [] m = _
    rw [flattenGo_eq_append m hg [] (by simp) [] (by simp), List.nil_append,
      flatCat_eq_leafPaths m hg [] (by simp)]
    simp
  show unflatGo [] (flattenObject m []) = some m
  rw [hflat, unflatGo_eq_insertAll, List.map_map]
  have hid : ∀ pw ∈ leafPaths m,
      ((fun kv : Str × Value => (splitDot kv.1, kv.2))
        ∘ (fun pw : List Str × Value => (joinDot pw.1, pw.2))) pw = pw := by
    intro pw hpw
    obtain ⟨⟨kp, p2, hshape, _⟩, hseg⟩ := leafPaths_good m hg pw hpw
    simp only [Function.comp]
    rw [splitDot_joinDot pw.1 (by rw [hshape]; exact List.cons_ne_nil _ _)
      (fun s hs => (hseg s hs).2)]
  rw [List.map_congr_left hid, List.map_id', insertAll_leafPaths m hg [] (by simp),
    List.nil_append]

/-- Direction 2 of the round-trip: flat maps with dot-free keys and
non-mapping values survive unflatten-then-flatten. -/
theorem flatten_unflatten (f : Entries) (hg : goodFlat f = true) :
    (unflattenObject f).map (fun t => flattenObject t []) = some f := by
  show (unflatGo [] f).map _ = some f
  rw [unflatGo_goodFlat f [] hg (by simp), List.nil_append, Option.map_some',
    flattenObject_goodFlat f hg]

/-- Counterexample to C7 as stated: the mappings `{"": {a: 1}}` and
`{a: {}}` both lie in the claimed domain (all keys are dot-free and no
leaf value is a plain mapping), yet neither survives
`unflattenObject(flattenObject(m))`: an empty top-level key makes the
inner keys lose their prefix, and an empty plain-mapping value produces no
flat entry at all, so both trees come back changed. -/
theorem flattenObject_unflattenObject_not_inverse :
    (claimDomTree [(([] : Str), Value.obj [((['a'] : Str), Value.num 1)])] = true
      ∧ unflattenObject
          (flattenObject [(([] : Str), Value.obj [((['a'] : Str), Value.num 1)])] [])
          ≠ some [(([] : Str), Value.obj [((['a'] : Str), Value.num 1)])])
    ∧ (claimDomTree [((['a'] : Str), Value.obj [])] = true
      ∧ unflattenObject (flattenObject [((['a'] : Str), Value.obj [])] [])
          ≠ some [((['a'] : Str), Value.obj [])]) := by
  refine ⟨⟨?_, ?_⟩, ?_, ?_⟩
  · simp [claimDomTree, claimDomV, containsKey, keysOf]
  · have h1 : flattenObject [(([] : Str), Value.obj [((['a'] : Str), Value.num 1)])] []
        = [((['a'] : Str), Value.num 1)] := by
      show flattenGo [] [] _ = _
      rw [flattenGo_cons_obj, flattenGo_cons_leaf _ _ _ _ _ (by simp [isPlainObj]),
        flattenGo_nil, flattenGo_nil]
      rfl
    rw [h1]
    have h2 : unflattenObject [((['a'] : Str), Value.num 1)]
        = some [((['a'] : Str), Value.num 1)] := by
      show unflatGo [] _ = _
      rw [unflatGo_cons, splitDot_nodot _ (by simp), insertPath_single]
      rfl
    rw [h2]
    simp
  · simp [claimDomTree, claimDomV, containsKey, keysOf]
  · have h1 : flattenObject [((['a'] : Str), Value.obj [])] [] = [] := by
      show flattenGo [] [] _ = _
      rw [flattenGo_cons_obj, flattenGo_nil, flattenGo_nil]
      rfl
    rw [h1]
    show some ([] : Entries) ≠ _
    simp

/-- **C7** (corrected). `flattenObject` (at the exported empty prefix) and
`unflattenObject` are mutual inverses on the amended domain: (1) for every
mapping tree whose keys at every nesting level are nonempty, dot-free and
distinct, and whose plain-mapping values are all nonempty,
`unflattenObject (flattenObject m)` returns `m`; (2) for every flat
mapping with dot-free distinct keys and no plain-mapping values,
`flattenObject (unflattenObject f)` returns `f`.  (As stated the claim is
false: see `flattenObject_unflattenObject_not_inverse`.) -/
theorem flatten_unflatten_roundtrip (m f : Entries) :
    (goodTree m = true → unflattenObject (flattenObject m []) = some m)
    ∧ (goodFlat f = true →
        (unflattenObject f).map (fun t => flattenObject t []) = some f) :=
  ⟨fun hg => unflatten_flatten m hg, fun hg => flatten_unflatten f hg⟩

/-- Witness for C7 at `{a: {b: 1}}` and the flat map `{c: 2}`. -/
theorem flatten_unflatten_roundtrip_witness :
    (goodTree [((['a'] : Str), Value.obj [((['b'] : Str), Value.num 1)])] = true
      ∧ unflattenObject
          (flattenObject [((['a'] : Str), Value.obj [((['b'] : Str), Value.num 1)])] [])
          = some [((['a'] : Str), Value.obj [((['b'] : Str), Value.num 1)])])
    ∧ (goodFlat [((['c'] : Str), Value.num 2)] = true
      ∧ (unflattenObject [((['c'] : Str), Value.num 2)]).map (fun t => flattenObject t [])
          = some [((['c'] : Str), Value.num 2)]) := by
  have hgt : goodTree [((['a'] : Str), Value.obj [((['b'] : Str), Value.num 1)])] = true := by
    simp [goodTree, goodV, containsKey, keysOf]
  have hgf : goodFlat [((['c'] : Str), Value.num 2)] = true := by
    simp [goodFlat, containsKey, keysOf, isPlainObj]
  exact ⟨⟨hgt, (flatten_unflatten_roundtrip
        [((['a'] : Str), Value.obj [((['b'] : Str), Value.num 1)])]
        [((['c'] : Str), Value.num 2)]).1 hgt⟩,
    ⟨hgf, (flatten_unflatten_roundtrip
        [((['a'] : Str), Value.obj [((['b'] : Str), Value.num 1)])]
        [((['c'] : Str), Value.num 2)]).2 hgf⟩⟩

end TsUtils
